import Mathlib

/-!
Shallow embedding of `src/single-linked-list/single-linked-list.h`
(`template <typename Type> class SingleLinkedList`), a sentinel-based
singly linked list with raw owning pointers.

The C++ code manipulates heap nodes through raw pointers, so the embedding
models the heap explicitly: an address is a `Nat`, the heap is a list of
allocation slots (`none` = freed / never allocated), and every member
function of `SingleLinkedList` becomes a Lean function threading the heap.
The sentinel `head_` is a node like any other (in C++ it is a member
subobject; here it occupies its own heap slot, which preserves the only
facts the code relies on: it has an address, it is distinct from every
real node, and `before_begin()` points at it).  `new` is modelled by
`Heap.alloc` (always returns a fresh address) and `delete` by `Heap.free`.
An iterator (`BasicIterator`) is just its `node_` pointer: `Option Nat`,
`none` being the null pointer / `end()`.  The mutable/const iterator
templates share one representation, exactly as both instantiations of
`BasicIterator` share the single field `Node* node_`.
-/

set_option autoImplicit false

namespace SLL

universe u

/-- `struct Node`: one value and the raw pointer `next_node`
(`Option Nat`, `none` = `nullptr`). -/
structure Node (α : Type u) where
  value : α
  next_node : Option Nat
deriving DecidableEq, Repr

/-- The heap: slot `a` holds `some n` when address `a` is a live `Node`,
`none` when it was freed or never allocated. -/
structure Heap (α : Type u) where
  mem : List (Option (Node α))
deriving DecidableEq, Repr

/-- Read the node at address `a` (`none` for a dangling/null address). -/
def Heap.get {α : Type u} (h : Heap α) (a : Nat) : Option (Node α) :=
  h.mem.getD a none

/-- `new Node(...)`: allocate a fresh slot, returning the new heap and the
fresh address. -/
def Heap.alloc {α : Type u} (h : Heap α) (n : Node α) : Heap α × Nat :=
  (⟨h.mem ++ [some n]⟩, h.mem.length)

/-- `delete a`: the slot becomes dead. -/
def Heap.free {α : Type u} (h : Heap α) (a : Nat) : Heap α :=
  ⟨h.mem.set a none⟩

/-- The assignment `a->next_node = nx`.  Writing through a dead address is
undefined behaviour in C++; it is modelled as a no-op and all theorems
only perform it on live addresses. -/
def Heap.setNext {α : Type u} (h : Heap α) (a : Nat) (nx : Option Nat) : Heap α :=
  match h.get a with
  | some n => ⟨h.mem.set a (some ⟨n.value, nx⟩)⟩
  | none => h

/-- `class SingleLinkedList`: the member `head_` is the address of the
sentinel node, `size_` the element counter. -/
structure SingleLinkedList where
  head_ : Nat
  size_ : Nat
deriving DecidableEq, Repr

variable {α : Type u}

/-- `GetSize()`: returns `size_`. -/
def GetSize (l : SingleLinkedList) : Nat :=
  l.size_

/-- `IsEmpty()`: returns `!size_`. -/
def IsEmpty (l : SingleLinkedList) : Bool :=
  l.size_ == 0

/-- `begin()` / `cbegin()`: `BasicIterator(head_.next_node)`. -/
def begin (h : Heap α) (l : SingleLinkedList) : Option Nat :=
  match h.get l.head_ with
  | some sn => sn.next_node
  | none => none

/-- `end()` / `cend()`: `BasicIterator(nullptr)`. -/
def endIter : Option Nat :=
  none

/-- `before_begin()` / `cbefore_begin()`: `BasicIterator(&head_)`. -/
def before_begin (l : SingleLinkedList) : Option Nat :=
  some l.head_

/-- `BasicIterator::operator++`: `if (node_) node_ = node_->next_node;`.
Advancing a dangling pointer is undefined behaviour; modelled as `none`. -/
def incr (h : Heap α) (it : Option Nat) : Option Nat :=
  match it with
  | none => none
  | some a =>
    match h.get a with
    | some n => n.next_node
    | none => none

/-- Iterator obtained from `it` by `n` applications of `operator++`. -/
def advN (h : Heap α) : Nat → Option Nat → Option Nat
  | 0, it => it
  | n + 1, it => advN h n (incr h it)

/-- `SingleLinkedList()`: default-construct — the object comes to life
with a default-constructed sentinel (`Type value = Type{}`,
`Node* next_node = nullptr`) and `size_ = 0`. -/
def mkEmpty [Inhabited α] (h : Heap α) : Heap α × SingleLinkedList :=
  let (h1, sa) := h.alloc ⟨default, none⟩
  (h1, ⟨sa, 0⟩)

/-- The construction loop shared by the `initializer_list` constructor and
the copy constructor: `next` starts as the sentinel address (`first` pass
writes `head_.next_node`, later passes write `next->next_node`; both are
the same pointer store), each step does `new Node(value, nullptr)`,
links it after `next`, and increments the element count. -/
def initLoop [Inhabited α] (h : Heap α) (next : Nat) :
    List α → Heap α × Nat × Nat
  | [] => (h, next, 0)
  | v :: vs =>
    let (h1, a) := h.alloc ⟨v, none⟩
    let h2 := h1.setNext next (some a)
    let (h3, last, k) := initLoop h2 a vs
    (h3, last, k + 1)

/-- `SingleLinkedList(std::initializer_list<Type> values)`: default-init
the members, then `if (values.size())` run the construction loop. -/
def fromValues [Inhabited α] (h : Heap α) (values : List α) :
    Heap α × SingleLinkedList :=
  let (h1, sa) := h.alloc ⟨default, none⟩
  if values.isEmpty then
    (h1, ⟨sa, 0⟩)
  else
    let (h2, _, k) := initLoop h1 sa values
    (h2, ⟨sa, k⟩)

/-- `void swap(SingleLinkedList& other)`:
`std::swap(head_.next_node, other.head_.next_node); std::swap(size_, other.size_);`.
The sentinels stay put; their `next` pointers and the sizes are exchanged. -/
def swapLists (h : Heap α) (l other : SingleLinkedList) :
    Heap α × SingleLinkedList × SingleLinkedList :=
  match h.get l.head_, h.get other.head_ with
  | some n1, some n2 =>
    ((h.setNext l.head_ n2.next_node).setNext other.head_ n1.next_node,
      ⟨l.head_, other.size_⟩, ⟨other.head_, l.size_⟩)
  | _, _ => (h, l, other)

/-- `void PushFront(const Type& value)`:
`head_.next_node = new Node(value, head_.next_node); ++size_;`. -/
def PushFront (h : Heap α) (l : SingleLinkedList) (value : α) :
    Heap α × SingleLinkedList :=
  match h.get l.head_ with
  | some sn =>
    let (h1, a) := h.alloc ⟨value, sn.next_node⟩
    (h1.setNext l.head_ (some a), ⟨l.head_, l.size_ + 1⟩)
  | none => (h, l)

/-- The `while (head_.next_node != nullptr)` loop of `Clear()`: detach the
first node and `delete` it.  The C++ loop terminates because the chain is
finite; the fuel argument bounds the iteration count and is instantiated
so that it never runs out on a well-formed list. -/
def clearLoop (h : Heap α) (sa : Nat) : Nat → Heap α
  | 0 => h
  | fuel + 1 =>
    match h.get sa with
    | none => h
    | some sn =>
      match sn.next_node with
      | none => h
      | some fa =>
        match h.get fa with
        | none => h
        | some fn => clearLoop ((h.setNext sa fn.next_node).free fa) sa fuel

/-- `void Clear()`: run the deletion loop, then `size_ = 0;`. -/
def Clear (h : Heap α) (l : SingleLinkedList) : Heap α × SingleLinkedList :=
  (clearLoop h l.head_ (h.mem.length + 1), ⟨l.head_, 0⟩)

/-- `Iterator InsertAfter(ConstIterator pos, const Type& value)` with the
copy-construction of `value` made explicit.  The C++ body is
`Node* add_elem = new Node(value, pos.node_->next_node);` —
copying `value` into the node happens here, before any store into the
list — then `pos.node_->next_node = add_elem; ++size_;` and the iterator
to `add_elem` is returned.  `newValue` is the outcome of that copy:
`.ok v` on success, `.error ()` when the copy constructor throws, in
which case no pointer store and no size increment have happened yet, so
the original heap and list are returned together with the signalled
exception.  A null `pos` fails the `assert(pos.node_ != nullptr)`
(undefined behaviour); it and a dangling `pos` are modelled inertly. -/
def InsertAfterChecked (h : Heap α) (l : SingleLinkedList) (pos : Option Nat)
    (newValue : Except Unit α) :
    (Heap α × SingleLinkedList × Option Nat) × Option Unit :=
  match pos with
  | none => ((h, l, none), none)
  | some p =>
    match h.get p with
    | none => ((h, l, none), none)
    | some pn =>
      match newValue with
      | .error e => ((h, l, none), some e)
      | .ok v =>
        let (h1, a) := h.alloc ⟨v, pn.next_node⟩
        ((h1.setNext p (some a), ⟨l.head_, l.size_ + 1⟩, some a), none)

/-- `InsertAfter` when the copy of `value` succeeds. -/
def InsertAfter (h : Heap α) (l : SingleLinkedList) (pos : Option Nat)
    (value : α) : Heap α × SingleLinkedList × Option Nat :=
  (InsertAfterChecked h l pos (.ok value)).1

/-- `void PopFront()`: `if (!IsEmpty()) { auto erase_el = head_.next_node;
head_.next_node = erase_el->next_node; delete erase_el; --size_; }`. -/
def PopFront (h : Heap α) (l : SingleLinkedList) :
    Heap α × SingleLinkedList :=
  if IsEmpty l then (h, l)
  else
    match h.get l.head_ with
    | none => (h, l)
    | some sn =>
      match sn.next_node with
      | none => (h, l)
      | some fa =>
        match h.get fa with
        | none => (h, l)
        | some fn =>
          ((h.setNext l.head_ fn.next_node).free fa, ⟨l.head_, l.size_ - 1⟩)

/-- `Iterator EraseAfter(ConstIterator pos)`:
`if (pos.node_ && pos.node_->next_node) { Node* del_elem = pos.node_->next_node;
pos.node_->next_node = del_elem->next_node; delete del_elem; --size_; }
return Iterator(pos.node_->next_node);` — the returned iterator reads
`pos`'s next pointer after the (possible) unlinking.  With `pos.node_`
null the final read dereferences a null pointer (undefined behaviour),
modelled as returning the null iterator; dangling addresses likewise. -/
def EraseAfter (h : Heap α) (l : SingleLinkedList) (pos : Option Nat) :
    Heap α × SingleLinkedList × Option Nat :=
  match pos with
  | none => (h, l, none)
  | some p =>
    match h.get p with
    | none => (h, l, none)
    | some pn =>
      match pn.next_node with
      | none => (h, l, none)
      | some da =>
        match h.get da with
        | none => (h, l, none)
        | some dn =>
          ((h.setNext p dn.next_node).free da,
            ⟨l.head_, l.size_ - 1⟩, dn.next_node)

/-- Front-to-back traversal from iterator `it` to `end()`, collecting the
visited addresses and values (the `for (auto value : list)` loop).  Fuel
bounds the number of steps; on a well-formed chain it never runs out. -/
def chainListF (h : Heap α) : Nat → Option Nat → Option (List Nat × List α)
  | 0, _ => none
  | _ + 1, none => some ([], [])
  | fuel + 1, some a =>
    match h.get a with
    | none => none
    | some n =>
      match chainListF h fuel n.next_node with
      | none => none
      | some (as, vs) => some (a :: as, n.value :: vs)

/-- The element sequence observed by iterating `begin()..end()`. -/
def toListF (h : Heap α) (l : SingleLinkedList) : Option (List α) :=
  match chainListF h (h.mem.length + 1) (begin h l) with
  | none => none
  | some (_, vs) => some vs

/-- `~SingleLinkedList()` running on the object: `Clear()`, then the
storage of the member `head_` disappears with the object. -/
def destroyList (h : Heap α) (l : SingleLinkedList) : Heap α :=
  ((Clear h l).1).free l.head_

/-- The tail of the copy constructor, once the element sequence `vals` of
the source has been read off: run the construction loop building the
temporary's chain off `ta`, `swap(temp)` with this list (sentinel `sa`),
and destroy the temporary. -/
def copyCtorBuild [Inhabited α] (h2 : Heap α) (sa ta : Nat) (vals : List α) :
    Heap α × SingleLinkedList :=
  let (h3, _, k) := initLoop h2 ta vals
  let (h4, lNew, temp) := swapLists h3 ⟨sa, 0⟩ ⟨ta, k⟩
  (destroyList h4 temp, lNew)

/-- `SingleLinkedList(const SingleLinkedList& other)`: default-init the
members (fresh sentinel, size 0); `if (!other.IsEmpty())` build a
temporary list (its own fresh sentinel) by running the construction loop
over `other`'s element sequence, then `swap(temp)`; the temporary — now
holding this list's original empty chain — is destroyed.  The loop's
reads (of `other`'s chain) and writes (fresh nodes hanging off `temp`)
touch disjoint addresses, so the element sequence is read off up front. -/
def copyCtor [Inhabited α] (h : Heap α) (other : SingleLinkedList) :
    Heap α × SingleLinkedList :=
  let (h1, sa) := h.alloc ⟨default, none⟩
  if IsEmpty other then
    (h1, ⟨sa, 0⟩)
  else
    let (h2, ta) := h1.alloc ⟨default, none⟩
    let vals := match chainListF h2 (h2.mem.length + 1) (begin h2 other) with
      | some (_, vs) => vs
      | none => []
    copyCtorBuild h2 sa ta vals

/-- `std::equal(first1, last1, first2)` as called by `operator==`:
`last1` is `lhs.end()` (null), `first2` has no paired end.  Each
iteration dereferences both iterators; when `first2` is null or dangling
while `first1` still has elements, that dereference is undefined
behaviour (`none`). -/
def stdEqualIt [DecidableEq α] (h : Heap α) :
    Nat → Option Nat → Option Nat → Option Bool
  | 0, _, _ => none
  | _ + 1, none, _ => some true
  | fuel + 1, some a, it2 =>
    match h.get a with
    | none => none
    | some n1 =>
      match it2 with
      | none => none
      | some b =>
        match h.get b with
        | none => none
        | some n2 =>
          if n1.value = n2.value then stdEqualIt h fuel n1.next_node n2.next_node
          else some false

/-- `operator==(lhs, rhs)`: `std::equal(lhs.begin(), lhs.end(), rhs.begin())`. -/
def opEq [DecidableEq α] (h : Heap α) (lhs rhs : SingleLinkedList) : Option Bool :=
  stdEqualIt h (h.mem.length + 1) (begin h lhs) (begin h rhs)

/-- `operator!=(lhs, rhs)`: `!(lhs == rhs)`. -/
def opNe [DecidableEq α] (h : Heap α) (lhs rhs : SingleLinkedList) : Option Bool :=
  match opEq h lhs rhs with
  | some b => some (!b)
  | none => none

/-- `std::lexicographical_compare(first1, last1, first2, last2)`: loop
while both ranges are non-empty comparing element-wise with `<`; on
falling off either range, the result is `first1 == last1 && first2 != last2`. -/
def lexIt [LT α] [DecidableRel (· < · : α → α → Prop)] (h : Heap α) :
    Nat → Option Nat → Option Nat → Option Bool
  | 0, _, _ => none
  | fuel + 1, it1, it2 =>
    match it1, it2 with
    | none, none => some false
    | none, some _ => some true
    | some _, none => some false
    | some a, some b =>
      match h.get a, h.get b with
      | some n1, some n2 =>
        if n1.value < n2.value then some true
        else if n2.value < n1.value then some false
        else lexIt h fuel n1.next_node n2.next_node
      | _, _ => none

/-- `operator<(lhs, rhs)`:
`std::lexicographical_compare(lhs.begin(), lhs.end(), rhs.begin(), rhs.end())`. -/
def opLt [LT α] [DecidableRel (· < · : α → α → Prop)] (h : Heap α)
    (lhs rhs : SingleLinkedList) : Option Bool :=
  lexIt h (h.mem.length + 1) (begin h lhs) (begin h rhs)

/-- `operator>(lhs, rhs)`: `rhs < lhs`. -/
def opGt [LT α] [DecidableRel (· < · : α → α → Prop)] (h : Heap α)
    (lhs rhs : SingleLinkedList) : Option Bool :=
  opLt h rhs lhs

/-- `operator=(const SingleLinkedList& rhs)` on distinct objects:
`SingleLinkedList temp(rhs); swap(temp);` and the temporary is destroyed
when it goes out of scope.  (Self-assignment is guarded and untouched.) -/
def opAssign [Inhabited α] (h : Heap α) (l rhs : SingleLinkedList) :
    Heap α × SingleLinkedList :=
  let (h1, temp) := copyCtor h rhs
  let (h2, lNew, temp1) := swapLists h1 l temp
  (destroyList h2 temp1, lNew)

/-- A pointer chain segment in heap `h`: starting from pointer `s`, the
listed addresses are visited in order, each slot is live, carries the
listed value, and the last node's `next_node` is `t` (for `t = none`, a
full null-terminated chain).  `ChainSeg h s as vs none` existing is
exactly "the chain from `s` is finite and ends in the null link". -/
inductive ChainSeg (h : Heap α) : Option Nat → List Nat → List α → Option Nat → Prop
  | nil (s : Option Nat) : ChainSeg h s [] [] s
  | cons {a : Nat} {v : α} {nx : Option Nat} {as : List Nat} {vs : List α}
      {t : Option Nat} (hget : h.get a = some ⟨v, nx⟩)
      (rest : ChainSeg h nx as vs t) : ChainSeg h (some a) (a :: as) (v :: vs) t

/-- Well-formed list state: the sentinel is live, the chain hanging off
its `next_node` is a finite null-terminated chain, the size counter
equals the number of chain nodes, and the sentinel is not itself a chain
node. -/
def WF (h : Heap α) (l : SingleLinkedList) : Prop :=
  ∃ sn as vs, h.get l.head_ = some sn ∧ ChainSeg h sn.next_node as vs none ∧
    as.length = l.size_ ∧ l.head_ ∉ as

/-- Natess `p` belongs to list `l`: it is the sentinel or one of the
chain nodes. -/
def InList (h : Heap α) (l : SingleLinkedList) (p : Nat) : Prop :=
  p = l.head_ ∨
    ∃ sn as vs, h.get l.head_ = some sn ∧ ChainSeg h sn.next_node as vs none ∧ p ∈ as

/-- A valid position for `InsertAfter` / `EraseAfter`: an iterator
referencing a live node of the list or its sentinel (not `end()`). -/
def ValidPos (h : Heap α) (l : SingleLinkedList) (pos : Option Nat) : Prop :=
  ∃ p, pos = some p ∧ InList h l p

/-- Two list objects are separate: no address (sentinel or chain node)
belongs to both. -/
def Sep (h : Heap α) (l1 l2 : SingleLinkedList) : Prop :=
  ∀ p, InList h l1 p → InList h l2 p → False

/-- One mutating operation applied to a list, used to quantify over
"any subsequent mutation" (push, pop, insert, erase, clear). -/
inductive Mutation (α : Type u) where
  | push (v : α)
  | pop
  | insertA (pos : Option Nat) (v : α)
  | eraseA (pos : Option Nat)
  | clear

/-- Apply a mutation to list `l` in heap `h`, returning the new heap and
list state. -/
def applyMut (h : Heap α) (l : SingleLinkedList) :
    Mutation α → Heap α × SingleLinkedList
  | .push v => PushFront h l v
  | .pop => PopFront h l
  | .insertA pos v =>
    let r := InsertAfter h l pos v
    (r.1, r.2.1)
  | .eraseA pos =>
    let r := EraseAfter h l pos
    (r.1, r.2.1)
  | .clear => Clear h l

/-- The side condition under which a mutation is a legal call: positional
operations must be handed a valid position of the mutated list (a foreign
or null iterator is a documented precondition violation). -/
def MutOK (h : Heap α) (l : SingleLinkedList) : Mutation α → Prop
  | .push _ => True
  | .pop => True
  | .insertA pos _ => ValidPos h l pos
  | .eraseA pos => ValidPos h l pos
  | .clear => True

/-- List states reachable from a constructor by public operations.  The
binary operations (`swap`, copy construction, copy assignment) involve a
second list object, which is required to be well-formed and — where the
two objects coexist — separate from the tracked one, as distinct live
C++ list objects are. -/
inductive Reachable [Inhabited α] [DecidableEq α] : Heap α → SingleLinkedList → Prop
  | mk_default (h : Heap α) :
      Reachable (mkEmpty h).1 (mkEmpty h).2
  | mk_init (h : Heap α) (values : List α) :
      Reachable (fromValues h values).1 (fromValues h values).2
  | mk_copy {h : Heap α} (other : SingleLinkedList) (hwf : WF h other) :
      Reachable (copyCtor h other).1 (copyCtor h other).2
  | push {h : Heap α} {l : SingleLinkedList} (v : α) (hr : Reachable h l) :
      Reachable (PushFront h l v).1 (PushFront h l v).2
  | pop {h : Heap α} {l : SingleLinkedList} (hr : Reachable h l) :
      Reachable (PopFront h l).1 (PopFront h l).2
  | insert {h : Heap α} {l : SingleLinkedList} {pos : Option Nat} (v : α)
      (hr : Reachable h l) (hpos : ValidPos h l pos) :
      Reachable (InsertAfter h l pos v).1 (InsertAfter h l pos v).2.1
  | erase {h : Heap α} {l : SingleLinkedList} {pos : Option Nat}
      (hr : Reachable h l) (hpos : ValidPos h l pos) :
      Reachable (EraseAfter h l pos).1 (EraseAfter h l pos).2.1
  | clear {h : Heap α} {l : SingleLinkedList} (hr : Reachable h l) :
      Reachable (Clear h l).1 (Clear h l).2
  | swap_fst {h : Heap α} {l : SingleLinkedList} (other : SingleLinkedList)
      (hr : Reachable h l) (hwf : WF h other) (hsep : Sep h l other) :
      Reachable (swapLists h l other).1 (swapLists h l other).2.1
  | swap_snd {h : Heap α} {l : SingleLinkedList} (other : SingleLinkedList)
      (hr : Reachable h l) (hwf : WF h other) (hsep : Sep h l other) :
      Reachable (swapLists h other l).1 (swapLists h other l).2.2
  | assign {h : Heap α} {l : SingleLinkedList} (rhs : SingleLinkedList)
      (hr : Reachable h l) (hwf : WF h rhs) (hsep : Sep h l rhs) :
      Reachable (opAssign h l rhs).1 (opAssign h l rhs).2

/-- Reference list-level form of `std::equal(first1, last1, first2)`
(`none` = the scan dereferences past the second range's end). -/
def stdEqual [DecidableEq α] : List α → List α → Option Bool
  | [], _ => some true
  | _ :: _, [] => none
  | x :: xs, y :: ys => if x = y then stdEqual xs ys else some false

/-- Reference list-level form of four-iterator
`std::lexicographical_compare`. -/
def lexLt [LT α] [DecidableRel (· < · : α → α → Prop)] : List α → List α → Bool
  | _, [] => false
  | [], _ :: _ => true
  | x :: xs, y :: ys => if x < y then true else if y < x then false else lexLt xs ys

/-- The empty heap, in which the sample states below are built. -/
def heap0 : Heap Int := ⟨[]⟩

/-- `SingleLinkedList<int>{1, 2}` built in the empty heap. -/
def demo12 : Heap Int × SingleLinkedList := fromValues heap0 [1, 2]

/-- `SingleLinkedList<int>{1, 2, 3}` built next to `demo12`. -/
def demo12_123 : Heap Int × SingleLinkedList := fromValues demo12.1 [1, 2, 3]

/-- `SingleLinkedList<int>{1, 2, 3}` built in the empty heap. -/
def demo123 : Heap Int × SingleLinkedList := fromValues heap0 [1, 2, 3]

/-- `SingleLinkedList<int>{1, 2, 4}` built next to `demo123`. -/
def demo123_124 : Heap Int × SingleLinkedList := fromValues demo123.1 [1, 2, 4]

/-- `SingleLinkedList<int>{1, 2, 3, 4}` built in the empty heap. -/
def demo1234 : Heap Int × SingleLinkedList := fromValues heap0 [1, 2, 3, 4]

/-- `SingleLinkedList<int>{3, 14, 15, 92, 6}` built in the empty heap. -/
def demo5 : Heap Int × SingleLinkedList := fromValues heap0 [3, 14, 15, 92, 6]

/-- A default-constructed (empty) list in the empty heap. -/
def demoE : Heap Int × SingleLinkedList := mkEmpty heap0

/-- The pointer at which a chain segment continuing with nodes `l2` and
otherwise ending at `t` starts. -/
def segJoin (l2 : List Nat) (t : Option Nat) : Option Nat :=
  match l2 with
  | [] => t
  | a :: _ => some a

/-! ### Basic heap lemmas -/

theorem Heap.get_eq_getElem? (h : Heap α) (a : Nat) :
    h.get a = (h.mem[a]?).getD none :=
  List.getD_eq_getElem?_getD h.mem a none

theorem Heap.lt_of_get_eq_some {h : Heap α} {a : Nat} {n : Node α}
    (hg : h.get a = some n) : a < h.mem.length := by
  by_contra hlt
  rw [Heap.get_eq_getElem?, List.getElem?_eq_none (Nat.le_of_not_lt hlt)] at hg
  simp at hg

theorem Heap.get_alloc (h : Heap α) (n : Node α) (b : Nat) :
    ((h.alloc n).1).get b = if b = h.mem.length then some n else h.get b := by
  by_cases hb : b = h.mem.length
  · subst hb
    rw [if_pos rfl]
    simp [Heap.alloc, Heap.get_eq_getElem?]
  · rw [if_neg hb]
    simp only [Heap.alloc, Heap.get_eq_getElem?]
    rcases Nat.lt_or_ge b h.mem.length with hlt | hge
    · rw [List.getElem?_append, if_pos hlt]
    · have hlt2 : ¬b < h.mem.length := Nat.not_lt.mpr hge
      have hone : 1 ≤ b - h.mem.length := by omega
      have hnil : ([some n] : List (Option (Node α)))[b - h.mem.length]? = none :=
        List.getElem?_eq_none (by simpa using hone)
      rw [List.getElem?_append, if_neg hlt2, hnil, List.getElem?_eq_none hge]

theorem Heap.get_alloc_of_get_eq_some {h : Heap α} {n m : Node α} {b : Nat}
    (hg : h.get b = some m) : ((h.alloc n).1).get b = some m := by
  have hlt := Heap.lt_of_get_eq_some hg
  rw [Heap.get_alloc, if_neg (by omega), hg]

theorem Heap.alloc_addr (h : Heap α) (n : Node α) : (h.alloc n).2 = h.mem.length :=
  rfl

theorem Heap.length_alloc (h : Heap α) (n : Node α) :
    ((h.alloc n).1).mem.length = h.mem.length + 1 := by
  simp [Heap.alloc]

theorem Heap.get_setNext_ne (h : Heap α) (a : Nat) (nx : Option Nat) {b : Nat}
    (hne : b ≠ a) : (h.setNext a nx).get b = h.get b := by
  unfold Heap.setNext
  cases hga : h.get a with
  | none => rfl
  | some n =>
    simp only [Heap.get_eq_getElem?]
    rw [List.getElem?_set_ne (fun he => hne he.symm)]

theorem Heap.get_setNext_self {h : Heap α} {a : Nat} {n : Node α}
    (hg : h.get a = some n) (nx : Option Nat) :
    (h.setNext a nx).get a = some ⟨n.value, nx⟩ := by
  unfold Heap.setNext
  rw [hg]
  simp only [Heap.get_eq_getElem?]
  rw [List.getElem?_set_eq_of_lt _ (Heap.lt_of_get_eq_some hg)]
  rfl

theorem Heap.length_setNext (h : Heap α) (a : Nat) (nx : Option Nat) :
    (h.setNext a nx).mem.length = h.mem.length := by
  unfold Heap.setNext
  cases h.get a <;> simp

theorem Heap.get_free_self (h : Heap α) (a : Nat) : (h.free a).get a = none := by
  unfold Heap.free
  rcases Nat.lt_or_ge a h.mem.length with hlt | hge
  · simp only [Heap.get_eq_getElem?]
    rw [List.getElem?_set_eq_of_lt _ hlt]
    rfl
  · rw [Heap.get_eq_getElem?, List.set_eq_of_length_le hge,
      List.getElem?_eq_none hge]
    rfl

theorem Heap.get_free_ne (h : Heap α) (a : Nat) {b : Nat} (hne : b ≠ a) :
    (h.free a).get b = h.get b := by
  unfold Heap.free
  simp only [Heap.get_eq_getElem?]
  rw [List.getElem?_set_ne (fun he => hne he.symm)]

theorem Heap.length_free (h : Heap α) (a : Nat) :
    (h.free a).mem.length = h.mem.length := by
  simp [Heap.free]

/-! ### Chain segment lemmas -/

theorem ChainSeg.congr {h h' : Heap α} {s : Option Nat} {as : List Nat}
    {vs : List α} {t : Option Nat} (hc : ChainSeg h s as vs t) :
    (∀ a ∈ as, h'.get a = h.get a) → ChainSeg h' s as vs t := by
  induction hc with
  | nil s => intro _; exact ChainSeg.nil s
  | cons hget _ ih =>
    intro hagree
    exact ChainSeg.cons ((hagree _ (List.mem_cons_self _ _)).trans hget)
      (ih fun a ha => hagree a (List.mem_cons_of_mem _ ha))

theorem ChainSeg.append {h : Heap α} {s : Option Nat} {as1 : List Nat}
    {vs1 : List α} {t : Option Nat} (hc1 : ChainSeg h s as1 vs1 t) :
    ∀ {as2 : List Nat} {vs2 : List α} {u : Option Nat},
      ChainSeg h t as2 vs2 u → ChainSeg h s (as1 ++ as2) (vs1 ++ vs2) u := by
  induction hc1 with
  | nil s => intro as2 vs2 u hc2; simpa using hc2
  | cons hget _ ih => intro as2 vs2 u hc2; exact ChainSeg.cons hget (ih hc2)

theorem ChainSeg.length_eq {h : Heap α} {s : Option Nat} {as : List Nat}
    {vs : List α} {t : Option Nat} (hc : ChainSeg h s as vs t) :
    as.length = vs.length := by
  induction hc with
  | nil s => rfl
  | cons _ _ ih => simpa using ih

theorem ChainSeg.mem_lt {h : Heap α} {s : Option Nat} {as : List Nat}
    {vs : List α} {t : Option Nat} (hc : ChainSeg h s as vs t) :
    ∀ a ∈ as, a < h.mem.length := by
  induction hc with
  | nil s => intro a ha; cases ha
  | cons hget _ ih =>
    intro b hb
    rcases List.mem_cons.mp hb with rfl | hb2
    · exact Heap.lt_of_get_eq_some hget
    · exact ih b hb2

theorem ChainSeg.det {h : Heap α} {s : Option Nat} {as1 : List Nat}
    {vs1 : List α} (hc1 : ChainSeg h s as1 vs1 none) :
    ∀ {as2 : List Nat} {vs2 : List α}, ChainSeg h s as2 vs2 none →
      as1 = as2 ∧ vs1 = vs2 := by
  have key : ∀ {t s0 : Option Nat} {bs1 : List Nat} {ws1 : List α},
      ChainSeg h s0 bs1 ws1 t → t = none →
      ∀ {bs2 : List Nat} {ws2 : List α}, ChainSeg h s0 bs2 ws2 none →
        bs1 = bs2 ∧ ws1 = ws2 := by
    intro t s0 bs1 ws1 hc
    induction hc with
    | nil s1 =>
      intro ht bs2 ws2 hc2
      subst ht
      cases hc2 with
      | nil => exact ⟨rfl, rfl⟩
    | cons hget rest ih =>
      intro ht bs2 ws2 hc2
      subst ht
      cases hc2 with
      | cons hget2 rest2 =>
        rw [hget] at hget2
        injection hget2 with he
        injection he with he1 he2
        subst he1
        subst he2
        obtain ⟨e1, e2⟩ := ih rfl rest2
        exact ⟨by rw [e1], by rw [e2]⟩
  intro as2 vs2 hc2
  exact key hc1 rfl hc2

theorem ChainSeg.mem_suffix {h : Heap α} {s : Option Nat} {as : List Nat}
    {vs : List α} (hc : ChainSeg h s as vs none) :
    ∀ {p : Nat}, p ∈ as → ∃ as2 vs2, ChainSeg h (some p) as2 vs2 none ∧
      as2.length ≤ as.length ∧ ∀ x ∈ as2, x ∈ as := by
  have key : ∀ {t s0 : Option Nat} {bs : List Nat} {ws : List α},
      ChainSeg h s0 bs ws t → t = none →
      ∀ {p : Nat}, p ∈ bs → ∃ bs2 ws2, ChainSeg h (some p) bs2 ws2 none ∧
        bs2.length ≤ bs.length ∧ ∀ x ∈ bs2, x ∈ bs := by
    intro t s0 bs ws hc0
    induction hc0 with
    | nil s1 => intro _ p hp; cases hp
    | cons hget rest ih =>
      intro ht p hp
      subst ht
      rcases List.mem_cons.mp hp with rfl | hp2
      · exact ⟨_, _, ChainSeg.cons hget rest, Nat.le_refl _, fun x hx => hx⟩
      · obtain ⟨bs2, ws2, hc2, hlen, hsub⟩ := ih rfl hp2
        exact ⟨bs2, ws2, hc2, Nat.le_succ_of_le hlen,
          fun x hx => List.mem_cons_of_mem _ (hsub x hx)⟩
  intro p hp
  exact key hc rfl hp

theorem ChainSeg.nodup {h : Heap α} {s : Option Nat} {as : List Nat}
    {vs : List α} (hc : ChainSeg h s as vs none) : as.Nodup := by
  have key : ∀ {t s0 : Option Nat} {bs : List Nat} {ws : List α},
      ChainSeg h s0 bs ws t → t = none → bs.Nodup := by
    intro t s0 bs ws hc0
    induction hc0 with
    | nil s1 => intro _; exact List.nodup_nil
    | cons hget rest ih =>
      intro ht
      subst ht
      refine List.nodup_cons.mpr ⟨fun hmem => ?_, ih rfl⟩
      obtain ⟨bs2, ws2, hc2, hlen, _⟩ := rest.mem_suffix hmem
      obtain ⟨heq, _⟩ := (ChainSeg.cons hget rest).det hc2
      rw [← heq] at hlen
      simp only [List.length_cons] at hlen
      omega
  exact key hc rfl

theorem chainListF_eq {h : Heap α} {s : Option Nat} {as : List Nat}
    {vs : List α} (hc : ChainSeg h s as vs none) :
    ∀ fuel, as.length < fuel → chainListF h fuel s = some (as, vs) := by
  have key : ∀ {t s0 : Option Nat} {bs : List Nat} {ws : List α},
      ChainSeg h s0 bs ws t → t = none →
      ∀ fuel, bs.length < fuel → chainListF h fuel s0 = some (bs, ws) := by
    intro t s0 bs ws hc0
    induction hc0 with
    | nil s1 =>
      intro ht fuel hf
      subst ht
      cases fuel with
      | zero => cases hf
      | succ f => rfl
    | cons hget rest ih =>
      intro ht fuel hf
      subst ht
      cases fuel with
      | zero => cases hf
      | succ f =>
        have hrec := ih rfl f (by simpa using hf)
        simp only [chainListF, hget, hrec]
  exact key hc rfl

theorem chainListF_sound {h : Heap α} (fuel : Nat) :
    ∀ (s : Option Nat) (as : List Nat) (vs : List α),
      chainListF h fuel s = some (as, vs) → ChainSeg h s as vs none := by
  induction fuel with
  | zero => intro s as vs hx; simp [chainListF] at hx
  | succ f ih =>
    intro s as vs hx
    cases s with
    | none =>
      simp only [chainListF, Option.some.injEq, Prod.mk.injEq] at hx
      obtain ⟨rfl, rfl⟩ := hx
      exact ChainSeg.nil none
    | some a =>
      simp only [chainListF] at hx
      split at hx
      · exact absurd hx (by simp)
      · rename_i n hga
        split at hx
        · exact absurd hx (by simp)
        · rename_i as2 vs2 hrec
          simp only [Option.some.injEq, Prod.mk.injEq] at hx
          obtain ⟨rfl, rfl⟩ := hx
          exact ChainSeg.cons (by rw [hga]) (ih _ _ _ hrec)

theorem advN_none (h : Heap α) : ∀ i, advN h i none = none
  | 0 => rfl
  | i + 1 => advN_none h i

theorem advN_chain {h : Heap α} :
    ∀ (i : Nat) {s : Option Nat} {as : List Nat} {vs : List α},
      ChainSeg h s as vs none → advN h i s = (as.drop i).head? := by
  intro i
  induction i with
  | zero =>
    intro s as vs hc
    cases hc with
    | nil => rfl
    | cons hget rest => rfl
  | succ j ih =>
    intro s as vs hc
    cases hc with
    | nil =>
      show advN h j (incr h none) = ([] : List Nat).head?
      rw [show incr h none = (none : Option Nat) from rfl, advN_none]
      rfl
    | cons hget rest =>
      rename_i a v nx as2 vs2
      have hincr : incr h (some a) = nx := by simp [incr, hget]
      show advN h j (incr h (some a)) = _
      rw [hincr]
      simpa using ih rest

theorem ChainSeg.split {h : Heap α} :
    ∀ {l1 : List Nat} {v1 : List α} {s t : Option Nat} {l2 : List Nat} {v2 : List α},
      ChainSeg h s (l1 ++ l2) (v1 ++ v2) t → l1.length = v1.length →
      ChainSeg h s l1 v1 (segJoin l2 t) ∧ ChainSeg h (segJoin l2 t) l2 v2 t := by
  intro l1
  induction l1 with
  | nil =>
    intro v1 s t l2 v2 hc hlen
    have hv1 : v1 = [] := by
      cases v1 with
      | nil => rfl
      | cons _ _ => cases hlen
    subst hv1
    simp only [List.nil_append] at hc
    cases hc with
    | nil => exact ⟨ChainSeg.nil _, ChainSeg.nil _⟩
    | cons hget rest => exact ⟨ChainSeg.nil _, ChainSeg.cons hget rest⟩
  | cons hd tl ih =>
    intro v1 s t l2 v2 hc hlen
    cases v1 with
    | nil => cases hlen
    | cons w v1 =>
      simp only [List.cons_append] at hc
      cases hc with
      | cons hget rest =>
        obtain ⟨hA, hB⟩ := ih rest (by simpa using hlen)
        exact ⟨ChainSeg.cons hget hA, hB⟩

/-! ### Operation specifications -/

theorem initLoop_spec [Inhabited α] :
    ∀ (vs : List α) (h : Heap α) (sa : Nat) (sv : α),
      h.get sa = some ⟨sv, none⟩ →
      ∃ as : List Nat,
        (initLoop h sa vs).2.2 = vs.length ∧
        ((initLoop h sa vs).1).get sa = some ⟨sv, segJoin as none⟩ ∧
        ChainSeg (initLoop h sa vs).1 (segJoin as none) as vs none ∧
        (∀ a ∈ as, h.mem.length ≤ a) ∧
        (∀ b, b ≠ sa → b < h.mem.length → ((initLoop h sa vs).1).get b = h.get b) ∧
        h.mem.length ≤ ((initLoop h sa vs).1).mem.length := by
  intro vs
  induction vs with
  | nil =>
    intro h sa sv hg
    exact ⟨[], rfl, hg, ChainSeg.nil none, by simp, fun b _ _ => rfl, Nat.le_refl _⟩
  | cons v vs ih =>
    intro h sa sv hg
    have hlt : sa < h.mem.length := Heap.lt_of_get_eq_some hg
    have hne : sa ≠ h.mem.length := by omega
    have hg1a : ((h.alloc ⟨v, none⟩).1).get h.mem.length = some ⟨v, none⟩ := by
      rw [Heap.get_alloc, if_pos rfl]
    have hg1sa : ((h.alloc ⟨v, none⟩).1).get sa = some ⟨sv, none⟩ :=
      Heap.get_alloc_of_get_eq_some hg
    have hg2a :
        ((((h.alloc ⟨v, none⟩).1).setNext sa (some h.mem.length))).get h.mem.length
          = some ⟨v, none⟩ := by
      rw [Heap.get_setNext_ne _ _ _ (fun he => hne he.symm), hg1a]
    have hg2sa :
        ((((h.alloc ⟨v, none⟩).1).setNext sa (some h.mem.length))).get sa
          = some ⟨sv, some h.mem.length⟩ :=
      Heap.get_setNext_self hg1sa _
    have hlen2 :
        ((((h.alloc ⟨v, none⟩).1).setNext sa (some h.mem.length))).mem.length
          = h.mem.length + 1 := by
      rw [Heap.length_setNext, Heap.length_alloc]
    obtain ⟨as2, hk, hsa2, hchain, hfresh, hframe, hmono⟩ :=
      ih (((h.alloc ⟨v, none⟩).1).setNext sa (some h.mem.length)) h.mem.length v hg2a
    have hstep : initLoop h sa (v :: vs) =
        ((initLoop (((h.alloc ⟨v, none⟩).1).setNext sa (some h.mem.length))
            h.mem.length vs).1,
         (initLoop (((h.alloc ⟨v, none⟩).1).setNext sa (some h.mem.length))
            h.mem.length vs).2.1,
         (initLoop (((h.alloc ⟨v, none⟩).1).setNext sa (some h.mem.length))
            h.mem.length vs).2.2 + 1) := rfl
    refine ⟨h.mem.length :: as2, ?_, ?_, ?_, ?_, ?_, ?_⟩
    · rw [hstep]
      simpa using hk
    · rw [hstep]
      rw [hframe sa hne (by omega), hg2sa]
      rfl
    · rw [hstep]
      exact ChainSeg.cons hsa2 hchain
    · intro a ha
      rcases List.mem_cons.mp ha with rfl | ha2
      · exact Nat.le_refl _
      · have := hfresh a ha2
        omega
    · intro b hbsa hblt
      rw [hstep]
      have hbA : b ≠ h.mem.length := by omega
      rw [hframe b hbA (by omega), Heap.get_setNext_ne _ _ _ hbsa,
        Heap.get_alloc, if_neg hbA]
    · show h.mem.length ≤
        ((initLoop (((h.alloc ⟨v, none⟩).1).setNext sa (some h.mem.length))
          h.mem.length vs).1).mem.length
      omega

theorem fromValues_spec [Inhabited α] (h : Heap α) (vs : List α) :
    ∃ as : List Nat,
      (fromValues h vs).2.head_ = h.mem.length ∧
      (fromValues h vs).2.size_ = vs.length ∧
      ((fromValues h vs).1).get h.mem.length = some ⟨default, segJoin as none⟩ ∧
      ChainSeg (fromValues h vs).1 (segJoin as none) as vs none ∧
      (∀ a ∈ as, h.mem.length < a) ∧
      (∀ b, b < h.mem.length → ((fromValues h vs).1).get b = h.get b) ∧
      h.mem.length < ((fromValues h vs).1).mem.length := by
  have hg1 : ((h.alloc ⟨(default : α), none⟩).1).get h.mem.length
      = some ⟨default, none⟩ := by
    rw [Heap.get_alloc, if_pos rfl]
  cases hvs : vs with
  | nil =>
    refine ⟨[], rfl, rfl, hg1, ChainSeg.nil none, by simp, ?_, ?_⟩
    · intro b hblt
      show ((h.alloc ⟨(default : α), none⟩).1).get b = h.get b
      rw [Heap.get_alloc, if_neg (by omega)]
    · show h.mem.length < ((h.alloc ⟨(default : α), none⟩).1).mem.length
      rw [Heap.length_alloc]
      omega
  | cons w ws =>
    obtain ⟨as2, hk, hsa2, hchain, hfresh, hframe, hmono⟩ :=
      initLoop_spec (w :: ws) ((h.alloc ⟨(default : α), none⟩).1) h.mem.length
        default hg1
    have hlen1 : ((h.alloc ⟨(default : α), none⟩).1).mem.length
        = h.mem.length + 1 := Heap.length_alloc h _
    have hstep : fromValues h (w :: ws) =
        ((initLoop ((h.alloc ⟨(default : α), none⟩).1) h.mem.length (w :: ws)).1,
         ⟨h.mem.length,
          (initLoop ((h.alloc ⟨(default : α), none⟩).1) h.mem.length (w :: ws)).2.2⟩) :=
      rfl
    refine ⟨as2, ?_, ?_, ?_, ?_, ?_, ?_, ?_⟩
    · rw [hstep]
    · rw [hstep]
      simpa using hk
    · rw [hstep]
      exact hsa2
    · rw [hstep]
      exact hchain
    · intro a ha
      have := hfresh a ha
      rw [hlen1] at this
      omega
    · intro b hblt
      rw [hstep]
      rw [hframe b (by omega) (by omega), Heap.get_alloc, if_neg (by omega)]
    · show h.mem.length <
        ((initLoop ((h.alloc ⟨(default : α), none⟩).1) h.mem.length
          (w :: ws)).1).mem.length
      omega

theorem chain_length_le {h : Heap α} {s : Option Nat} {as : List Nat}
    {vs : List α} (hc : ChainSeg h s as vs none) :
    as.length ≤ h.mem.length := by
  classical
  have hnd := hc.nodup
  have hmem := hc.mem_lt
  calc as.length = as.toFinset.card := (List.toFinset_card_of_nodup hnd).symm
    _ ≤ (Finset.range h.mem.length).card := by
        refine Finset.card_le_card (fun x hx => ?_)
        simp only [List.mem_toFinset] at hx
        simp only [Finset.mem_range]
        exact hmem x hx
    _ = h.mem.length := Finset.card_range _

theorem InList_iff {h : Heap α} {l : SingleLinkedList} {sn : Node α}
    {as : List Nat} {vs : List α} (hsn : h.get l.head_ = some sn)
    (hchain : ChainSeg h sn.next_node as vs none) (p : Nat) :
    InList h l p ↔ (p = l.head_ ∨ p ∈ as) := by
  constructor
  · intro hp
    rcases hp with rfl | ⟨sn2, as2, vs2, hsn2, hchain2, hp2⟩
    · exact Or.inl rfl
    · rw [hsn] at hsn2
      injection hsn2 with he
      subst he
      obtain ⟨heq, _⟩ := hchain.det hchain2
      exact Or.inr (heq ▸ hp2)
  · intro hp
    rcases hp with rfl | hp2
    · exact Or.inl rfl
    · exact Or.inr ⟨sn, as, vs, hsn, hchain, hp2⟩

theorem mkEmpty_spec [Inhabited α] (h : Heap α) :
    (mkEmpty h).2.head_ = h.mem.length ∧ (mkEmpty h).2.size_ = 0 ∧
    ((mkEmpty h).1).get h.mem.length = some ⟨default, none⟩ ∧
    (∀ b, b < h.mem.length → ((mkEmpty h).1).get b = h.get b) ∧
    ((mkEmpty h).1).mem.length = h.mem.length + 1 := by
  refine ⟨rfl, rfl, ?_, ?_, ?_⟩
  · show ((h.alloc ⟨(default : α), none⟩).1).get h.mem.length = _
    rw [Heap.get_alloc, if_pos rfl]
  · intro b hb
    show ((h.alloc ⟨(default : α), none⟩).1).get b = h.get b
    rw [Heap.get_alloc, if_neg (by omega)]
  · show ((h.alloc ⟨(default : α), none⟩).1).mem.length = _
    rw [Heap.length_alloc]

theorem PushFront_spec {h : Heap α} {l : SingleLinkedList} {sn : Node α}
    {as : List Nat} {vs : List α} (hsn : h.get l.head_ = some sn)
    (hchain : ChainSeg h sn.next_node as vs none) (hhead : l.head_ ∉ as) (v : α) :
    (PushFront h l v).2.head_ = l.head_ ∧
    (PushFront h l v).2.size_ = l.size_ + 1 ∧
    ((PushFront h l v).1).get l.head_ = some ⟨sn.value, some h.mem.length⟩ ∧
    ChainSeg (PushFront h l v).1 (some h.mem.length)
      (h.mem.length :: as) (v :: vs) none ∧
    (∀ b, b ≠ l.head_ → b < h.mem.length → ((PushFront h l v).1).get b = h.get b) ∧
    ((PushFront h l v).1).mem.length = h.mem.length + 1 := by
  have hlt : l.head_ < h.mem.length := Heap.lt_of_get_eq_some hsn
  have hpf : PushFront h l v =
      (((h.alloc ⟨v, sn.next_node⟩).1).setNext l.head_
        (some (h.alloc ⟨v, sn.next_node⟩).2), ⟨l.head_, l.size_ + 1⟩) := by
    simp only [PushFront, hsn]
  have ha1 : ((h.alloc ⟨v, sn.next_node⟩).1).get l.head_ = some sn :=
    Heap.get_alloc_of_get_eq_some hsn
  have hgA : ((h.alloc ⟨v, sn.next_node⟩).1).get h.mem.length
      = some ⟨v, sn.next_node⟩ := by
    rw [Heap.get_alloc, if_pos rfl]
  refine ⟨by rw [hpf], by rw [hpf], ?_, ?_, ?_, ?_⟩
  · rw [hpf]
    show (((h.alloc ⟨v, sn.next_node⟩).1).setNext l.head_
        (some h.mem.length)).get l.head_ = _
    rw [Heap.get_setNext_self ha1]
  · rw [hpf]
    show ChainSeg (((h.alloc ⟨v, sn.next_node⟩).1).setNext l.head_
        (some h.mem.length)) _ _ _ _
    refine @ChainSeg.cons α _ _ _ sn.next_node _ _ _ ?_ ?_
    · rw [Heap.get_setNext_ne _ _ _ (by omega), hgA]
    · refine hchain.congr (fun a ha => ?_)
      have halt : a < h.mem.length := hchain.mem_lt a ha
      have hane : a ≠ l.head_ := fun he => hhead (he ▸ ha)
      rw [Heap.get_setNext_ne _ _ _ hane, Heap.get_alloc, if_neg (by omega)]
  · intro b hbh hblt
    rw [hpf]
    show (((h.alloc ⟨v, sn.next_node⟩).1).setNext l.head_
        (some h.mem.length)).get b = _
    rw [Heap.get_setNext_ne _ _ _ hbh, Heap.get_alloc, if_neg (by omega)]
  · rw [hpf]
    show (((h.alloc ⟨v, sn.next_node⟩).1).setNext l.head_
        (some h.mem.length)).mem.length = _
    rw [Heap.length_setNext, Heap.length_alloc]

theorem PopFront_spec {h : Heap α} {l : SingleLinkedList} {sn : Node α}
    {fa : Nat} {as : List Nat} {fv : α} {vs : List α}
    (hsn : h.get l.head_ = some sn)
    (hchain : ChainSeg h sn.next_node (fa :: as) (fv :: vs) none)
    (hsz : l.size_ ≠ 0) (hhead : l.head_ ∉ fa :: as) :
    ∃ nx : Option Nat, h.get fa = some ⟨fv, nx⟩ ∧
    (PopFront h l).2.head_ = l.head_ ∧
    (PopFront h l).2.size_ = l.size_ - 1 ∧
    ((PopFront h l).1).get l.head_ = some ⟨sn.value, nx⟩ ∧
    ChainSeg (PopFront h l).1 nx as vs none ∧
    ((PopFront h l).1).get fa = none ∧
    (∀ b, b ≠ l.head_ → b ≠ fa → ((PopFront h l).1).get b = h.get b) ∧
    ((PopFront h l).1).mem.length = h.mem.length := by
  have hnd := hchain.nodup
  have hfas : fa ∉ as := (List.nodup_cons.mp hnd).1
  have hhfa : l.head_ ≠ fa := fun he => hhead (he ▸ List.mem_cons_self _ _)
  have hhas : l.head_ ∉ as := fun hm => hhead (List.mem_cons_of_mem _ hm)
  obtain ⟨snv, snx⟩ := sn
  cases hchain with
  | cons hgf rest =>
    rename_i nx
    have hie : IsEmpty l = false := by
      simp only [IsEmpty, beq_eq_false_iff_ne, ne_eq]
      exact hsz
    have hpp : PopFront h l =
        ((h.setNext l.head_ nx).free fa, ⟨l.head_, l.size_ - 1⟩) := by
      rw [PopFront, hie]
      simp only [Bool.false_eq_true, if_false, hsn, hgf]
    refine ⟨nx, hgf, by rw [hpp], by rw [hpp], ?_, ?_, ?_, ?_, ?_⟩
    · rw [hpp]
      show ((h.setNext l.head_ nx).free fa).get l.head_ = _
      rw [Heap.get_free_ne _ _ hhfa, Heap.get_setNext_self hsn]
    · rw [hpp]
      refine rest.congr (fun a ha => ?_)
      have hane : a ≠ l.head_ := fun he => hhas (he ▸ ha)
      have hafa : a ≠ fa := fun he => hfas (he ▸ ha)
      show ((h.setNext l.head_ nx).free fa).get a = _
      rw [Heap.get_free_ne _ _ hafa, Heap.get_setNext_ne _ _ _ hane]
    · rw [hpp]
      exact Heap.get_free_self _ _
    · intro b hbh hbfa
      rw [hpp]
      show ((h.setNext l.head_ nx).free fa).get b = _
      rw [Heap.get_free_ne _ _ hbfa, Heap.get_setNext_ne _ _ _ hbh]
    · rw [hpp]
      show ((h.setNext l.head_ nx).free fa).mem.length = _
      rw [Heap.length_free, Heap.length_setNext]

theorem clearLoop_spec {α : Type u} :
    ∀ (as : List Nat) (h : Heap α) (sa : Nat) (sv : α) (s : Option Nat)
      (vs : List α),
      h.get sa = some ⟨sv, s⟩ → ChainSeg h s as vs none → sa ∉ as →
      ∀ fuel, as.length < fuel →
        (clearLoop h sa fuel).get sa = some ⟨sv, none⟩ ∧
        (∀ a ∈ as, (clearLoop h sa fuel).get a = none) ∧
        (∀ b, b ≠ sa → b ∉ as → (clearLoop h sa fuel).get b = h.get b) ∧
        (clearLoop h sa fuel).mem.length = h.mem.length := by
  intro as
  induction as with
  | nil =>
    intro h sa sv s vs hsn hchain hhead fuel hf
    cases hchain with
    | nil =>
      cases fuel with
      | zero => cases hf
      | succ f =>
        have hcl : clearLoop h sa (f + 1) = h := by
          simp only [clearLoop, hsn]
        rw [hcl]
        exact ⟨hsn, fun a ha => absurd ha (List.not_mem_nil a),
          fun b _ _ => rfl, rfl⟩
  | cons fa as ih =>
    intro h sa sv s vs hsn hchain hhead fuel hf
    have hnd := hchain.nodup
    have hfas : fa ∉ as := by
      cases hchain with
      | cons hgf rest => exact (List.nodup_cons.mp hnd).1
    cases hchain with
    | cons hgf rest =>
      rename_i fv nx vs2
      have hhfa : sa ≠ fa := fun he => hhead (he ▸ List.mem_cons_self _ _)
      have hhas : sa ∉ as := fun hm => hhead (List.mem_cons_of_mem _ hm)
      cases fuel with
      | zero => cases hf
      | succ f =>
        have hcl : clearLoop h sa (f + 1)
            = clearLoop ((h.setNext sa nx).free fa) sa f := by
          simp only [clearLoop, hsn, hgf]
        have hsn2 : ((h.setNext sa nx).free fa).get sa = some ⟨sv, nx⟩ := by
          rw [Heap.get_free_ne _ _ hhfa, Heap.get_setNext_self hsn]
        have hrest2 : ChainSeg ((h.setNext sa nx).free fa) nx as vs2 none := by
          refine rest.congr (fun a ha => ?_)
          have hane : a ≠ sa := fun he => hhas (he ▸ ha)
          have hafa : a ≠ fa := fun he => hfas (he ▸ ha)
          rw [Heap.get_free_ne _ _ hafa, Heap.get_setNext_ne _ _ _ hane]
        obtain ⟨ih1, ih2, ih3, ih4⟩ :=
          ih ((h.setNext sa nx).free fa) sa sv nx vs2 hsn2 hrest2 hhas f
            (by simpa using hf)
        rw [hcl]
        refine ⟨ih1, ?_, ?_, ?_⟩
        · intro a ha
          rcases List.mem_cons.mp ha with rfl | ha2
          · rw [ih3 a hhfa.symm hfas]
            exact Heap.get_free_self _ _
          · exact ih2 a ha2
        · intro b hbsa hbmem
          have hbfa : b ≠ fa := fun he => hbmem (he ▸ List.mem_cons_self _ _)
          have hbas : b ∉ as := fun hm => hbmem (List.mem_cons_of_mem _ hm)
          rw [ih3 b hbsa hbas]
          rw [Heap.get_free_ne _ _ hbfa, Heap.get_setNext_ne _ _ _ hbsa]
        · rw [ih4, Heap.length_free, Heap.length_setNext]

theorem Clear_spec {h : Heap α} {l : SingleLinkedList} {sn : Node α}
    {as : List Nat} {vs : List α} (hsn : h.get l.head_ = some sn)
    (hchain : ChainSeg h sn.next_node as vs none) (hhead : l.head_ ∉ as) :
    (Clear h l).2.head_ = l.head_ ∧
    (Clear h l).2.size_ = 0 ∧
    ((Clear h l).1).get l.head_ = some ⟨sn.value, none⟩ ∧
    (∀ a ∈ as, ((Clear h l).1).get a = none) ∧
    (∀ b, b ≠ l.head_ → b ∉ as → ((Clear h l).1).get b = h.get b) ∧
    ((Clear h l).1).mem.length = h.mem.length := by
  have hlen : as.length < h.mem.length + 1 :=
    Nat.lt_succ_of_le (chain_length_le hchain)
  obtain ⟨h1, h2, h3, h4⟩ :=
    clearLoop_spec as h l.head_ sn.value sn.next_node vs (by
      rw [hsn]) hchain hhead (h.mem.length + 1) hlen
  exact ⟨rfl, rfl, h1, h2, h3, h4⟩

theorem ChainSeg.start_eq {h : Heap α} {s : Option Nat} {as : List Nat}
    {vs : List α} (hc : ChainSeg h s as vs none) : s = segJoin as none := by
  cases hc with
  | nil => rfl
  | cons hget rest => rfl

theorem drop_append_cons {β : Type u} :
    ∀ (A : List β) (x : β) (B : List β), (A ++ x :: B).drop A.length = x :: B := by
  intro A
  induction A with
  | nil => intro x B; rfl
  | cons a A ih => intro x B; simp only [List.cons_append, List.length_cons,
      List.drop_succ_cons]; exact ih x B

theorem eraseIdx_append_cons {β : Type u} :
    ∀ (A : List β) (x : β) (B : List β), (A ++ x :: B).eraseIdx A.length = A ++ B := by
  intro A
  induction A with
  | nil => intro x B; rfl
  | cons a A ih =>
    intro x B
    show a :: (A ++ x :: B).eraseIdx A.length = _
    rw [ih x B]
    rfl

theorem insertIdx_append_cons {β : Type u} :
    ∀ (A : List β) (x y : β) (B : List β),
      (A ++ x :: B).insertIdx (A.length + 1) y = A ++ x :: y :: B := by
  intro A
  induction A with
  | nil => intro x y B; rfl
  | cons a A ih =>
    intro x y B
    show a :: (A ++ x :: B).insertIdx (A.length + 1) y = _
    rw [ih x y B]
    rfl

theorem chain_split_idx {h : Heap α} :
    ∀ (j : Nat) {s : Option Nat} {as : List Nat} {vs : List α},
      ChainSeg h s as vs none → j < as.length →
      ∃ (A : List Nat) (p : Nat) (S : List Nat) (VA : List α) (pv : α)
        (VS : List α),
        as = A ++ p :: S ∧ vs = VA ++ pv :: VS ∧ A.length = j ∧ VA.length = j ∧
        ChainSeg h s A VA (some p) ∧
        h.get p = some ⟨pv, segJoin S none⟩ ∧
        ChainSeg h (segJoin S none) S VS none := by
  intro j
  induction j with
  | zero =>
    intro s as vs hc hj
    cases hc with
    | nil => cases hj
    | cons hget rest =>
      rename_i a v nx as2 vs2
      exact ⟨[], a, as2, [], v, vs2, rfl, rfl, rfl, rfl, ChainSeg.nil _,
        by rw [hget, rest.start_eq], rest.start_eq ▸ rest⟩
  | succ k ih =>
    intro s as vs hc hj
    cases hc with
    | nil => cases hj
    | cons hget rest =>
      rename_i a v nx as2 vs2
      obtain ⟨A, p, S, VA, pv, VS, h1, h2, h3, h4, h5, h6, h7⟩ :=
        ih rest (by simp only [List.length_cons] at hj; omega)
      exact ⟨a :: A, p, S, v :: VA, pv, VS, by rw [h1, List.cons_append],
        by rw [h2, List.cons_append],
        by simp [h3], by simp [h4], ChainSeg.cons hget h5, h6, h7⟩

theorem swapLists_spec {h : Heap α} {l1 l2 : SingleLinkedList}
    {sn1 sn2 : Node α} {as1 as2 : List Nat} {vs1 vs2 : List α}
    (hsn1 : h.get l1.head_ = some sn1)
    (hc1 : ChainSeg h sn1.next_node as1 vs1 none)
    (hsn2 : h.get l2.head_ = some sn2)
    (hc2 : ChainSeg h sn2.next_node as2 vs2 none)
    (hne : l1.head_ ≠ l2.head_)
    (h1n2 : l1.head_ ∉ as2) (h2n1 : l2.head_ ∉ as1)
    (h1n1 : l1.head_ ∉ as1) (h2n2 : l2.head_ ∉ as2) :
    (swapLists h l1 l2).2.1 = ⟨l1.head_, l2.size_⟩ ∧
    (swapLists h l1 l2).2.2 = ⟨l2.head_, l1.size_⟩ ∧
    ((swapLists h l1 l2).1).get l1.head_ = some ⟨sn1.value, sn2.next_node⟩ ∧
    ((swapLists h l1 l2).1).get l2.head_ = some ⟨sn2.value, sn1.next_node⟩ ∧
    ChainSeg (swapLists h l1 l2).1 sn2.next_node as2 vs2 none ∧
    ChainSeg (swapLists h l1 l2).1 sn1.next_node as1 vs1 none ∧
    (∀ b, b ≠ l1.head_ → b ≠ l2.head_ →
      ((swapLists h l1 l2).1).get b = h.get b) ∧
    ((swapLists h l1 l2).1).mem.length = h.mem.length := by
  have hsw : swapLists h l1 l2 =
      ((h.setNext l1.head_ sn2.next_node).setNext l2.head_ sn1.next_node,
        ⟨l1.head_, l2.size_⟩, ⟨l2.head_, l1.size_⟩) := by
    simp only [swapLists, hsn1, hsn2]
  have hg1 : ((h.setNext l1.head_ sn2.next_node).setNext l2.head_
      sn1.next_node).get l1.head_ = some ⟨sn1.value, sn2.next_node⟩ := by
    rw [Heap.get_setNext_ne _ _ _ hne, Heap.get_setNext_self hsn1]
  have hg2' : (h.setNext l1.head_ sn2.next_node).get l2.head_ = some sn2 := by
    rw [Heap.get_setNext_ne _ _ _ (fun he => hne he.symm), hsn2]
  have hg2 : ((h.setNext l1.head_ sn2.next_node).setNext l2.head_
      sn1.next_node).get l2.head_ = some ⟨sn2.value, sn1.next_node⟩ :=
    Heap.get_setNext_self hg2' _
  have hframe : ∀ b, b ≠ l1.head_ → b ≠ l2.head_ →
      ((h.setNext l1.head_ sn2.next_node).setNext l2.head_
        sn1.next_node).get b = h.get b := by
    intro b hb1 hb2
    rw [Heap.get_setNext_ne _ _ _ hb2, Heap.get_setNext_ne _ _ _ hb1]
  refine ⟨by rw [hsw], by rw [hsw], by rw [hsw]; exact hg1, by rw [hsw]; exact hg2,
    ?_, ?_, ?_, ?_⟩
  · rw [hsw]
    refine hc2.congr (fun a ha => ?_)
    exact hframe a (fun he => h1n2 (he ▸ ha)) (fun he => h2n2 (he ▸ ha))
  · rw [hsw]
    refine hc1.congr (fun a ha => ?_)
    exact hframe a (fun he => h1n1 (he ▸ ha)) (fun he => h2n1 (he ▸ ha))
  · intro b hb1 hb2
    rw [hsw]
    exact hframe b hb1 hb2
  · rw [hsw]
    show ((h.setNext l1.head_ sn2.next_node).setNext l2.head_
      sn1.next_node).mem.length = _
    rw [Heap.length_setNext, Heap.length_setNext]

theorem segJoin_none (B : List Nat) : segJoin B none = B.head? := by
  cases B with
  | nil => rfl
  | cons b B => rfl

theorem EraseAfter_at {h : Heap α} {l : SingleLinkedList} {sn : Node α}
    {as : List Nat} {vs : List α}
    (hsn : h.get l.head_ = some sn)
    (hchain : ChainSeg h sn.next_node as vs none)
    (hhead : l.head_ ∉ as) {i : Nat} (hi : i < as.length) :
    (EraseAfter h l (advN h i (before_begin l))).2.1
        = ⟨l.head_, l.size_ - 1⟩ ∧
    (∃ sn2 : Node α,
      ((EraseAfter h l (advN h i (before_begin l))).1).get l.head_ = some sn2 ∧
      sn2.value = sn.value ∧
      ChainSeg (EraseAfter h l (advN h i (before_begin l))).1 sn2.next_node
        (as.eraseIdx i) (vs.eraseIdx i) none) ∧
    (EraseAfter h l (advN h i (before_begin l))).2.2
        = ((as.eraseIdx i).drop i).head? ∧
    (∃ da : Nat, (as.drop i).head? = some da ∧
      ((EraseAfter h l (advN h i (before_begin l))).1).get da = none) ∧
    (∀ b, b ≠ l.head_ → b ∉ as →
      ((EraseAfter h l (advN h i (before_begin l))).1).get b = h.get b) ∧
    ((EraseAfter h l (advN h i (before_begin l))).1).mem.length
        = h.mem.length := by
  obtain ⟨snv, snx⟩ := sn
  have hnd := hchain.nodup
  cases i with
  | zero =>
    cases hchain with
    | nil => cases hi
    | cons hgda restS =>
      rename_i da dv dnx B VB
      have hposeq : advN h 0 (before_begin l) = some l.head_ := rfl
      rw [hposeq]
      have hhda : l.head_ ≠ da := fun he => hhead (he ▸ List.mem_cons_self _ _)
      have hhB : l.head_ ∉ B := fun hm => hhead (List.mem_cons_of_mem _ hm)
      have hdaB : da ∉ B := (List.nodup_cons.mp hnd).1
      have hr : EraseAfter h l (some l.head_) =
          ((h.setNext l.head_ dnx).free da, ⟨l.head_, l.size_ - 1⟩, dnx) := by
        simp only [EraseAfter, hsn, hgda]
      rw [hr]
      refine ⟨rfl, ⟨⟨snv, dnx⟩, ?_, rfl, ?_⟩, ?_, ⟨da, rfl, ?_⟩, ?_, ?_⟩
      · show ((h.setNext l.head_ dnx).free da).get l.head_ = _
        rw [Heap.get_free_ne _ _ hhda, Heap.get_setNext_self hsn]
      · show ChainSeg ((h.setNext l.head_ dnx).free da) dnx B VB none
        refine restS.congr (fun b hb => ?_)
        have hb1 : b ≠ da := fun he => hdaB (he ▸ hb)
        have hb2 : b ≠ l.head_ := fun he => hhB (he ▸ hb)
        rw [Heap.get_free_ne _ _ hb1, Heap.get_setNext_ne _ _ _ hb2]
      · show dnx = (B.drop 0).head?
        rw [List.drop_zero, ← segJoin_none]
        exact restS.start_eq
      · exact Heap.get_free_self _ _
      · intro b hb1 hb2
        have hbda : b ≠ da := fun he => hb2 (he ▸ List.mem_cons_self _ _)
        show ((h.setNext l.head_ dnx).free da).get b = _
        rw [Heap.get_free_ne _ _ hbda, Heap.get_setNext_ne _ _ _ hb1]
      · show ((h.setNext l.head_ dnx).free da).mem.length = _
        rw [Heap.length_free, Heap.length_setNext]
  | succ j =>
    obtain ⟨A, p, S, VA, pv, VS, has, hvs, hAlen, hVAlen, segA, hgp, segS⟩ :=
      chain_split_idx j hchain (by omega)
    have hSlen : S.length ≠ 0 := by
      subst has
      rw [List.length_append, List.length_cons] at hi
      omega
    cases S with
    | nil => exact absurd rfl hSlen
    | cons da B =>
      cases segS with
      | cons hgda restS =>
        rename_i dv dnx VB
        subst has
        subst hvs
        -- nodup / head facts
        rw [List.nodup_append] at hnd
        obtain ⟨hndA, hndR, hdisj⟩ := hnd
        have hpda : p ≠ da := by
          have := (List.nodup_cons.mp hndR).1
          exact fun he => this (he ▸ List.mem_cons_self _ _)
        have hpB : p ∉ B := by
          have := (List.nodup_cons.mp hndR).1
          exact fun hm => this (List.mem_cons_of_mem _ hm)
        have hdaB : da ∉ B :=
          (List.nodup_cons.mp (List.nodup_cons.mp hndR).2).1
        have hpA : p ∉ A := fun hm => hdisj hm (List.mem_cons_self _ _)
        have hdaA : da ∉ A := fun hm =>
          hdisj hm (List.mem_cons_of_mem _ (List.mem_cons_self _ _))
        have hhp : l.head_ ≠ p := fun he => hhead (he ▸ (by
          exact List.mem_append_right A (List.mem_cons_self _ _)))
        have hhda : l.head_ ≠ da := fun he => hhead (he ▸ (by
          exact List.mem_append_right A
            (List.mem_cons_of_mem _ (List.mem_cons_self _ _))))
        have hhA : l.head_ ∉ A := fun hm => hhead (List.mem_append_left _ hm)
        have hhB : l.head_ ∉ B := fun hm => hhead (List.mem_append_right A
          (List.mem_cons_of_mem _ (List.mem_cons_of_mem _ hm)))
        -- the position iterator reaches p
        have hincr : incr h (some l.head_) = snx := by
          simp [incr, hsn]
        have hposeq : advN h (j + 1) (before_begin l) = some p := by
          show advN h j (incr h (some l.head_)) = some p
          rw [hincr, advN_chain j hchain]
          rw [← hAlen, drop_append_cons]
          rfl
        rw [hposeq]
        -- the erase step
        have hgp2 : h.get p = some ⟨pv, some da⟩ := hgp
        have hr : EraseAfter h l (some p) =
            ((h.setNext p dnx).free da, ⟨l.head_, l.size_ - 1⟩, dnx) := by
          simp only [EraseAfter, hgp2, hgda]
        rw [hr]
        -- list bookkeeping
        have hAlen2 : (A ++ [p]).length = j + 1 := by
          rw [List.length_append, hAlen]
          rfl
        have heraseAs : (A ++ p :: da :: B).eraseIdx (j + 1) = A ++ p :: B := by
          have h1 : A ++ p :: da :: B = (A ++ [p]) ++ da :: B := by
            rw [List.append_assoc]
            rfl
          rw [h1, ← hAlen2, eraseIdx_append_cons, List.append_assoc]
          rfl
        have heraseVs : (VA ++ pv :: dv :: VB).eraseIdx (j + 1) = VA ++ pv :: VB := by
          have h1 : VA ++ pv :: dv :: VB = (VA ++ [pv]) ++ dv :: VB := by
            rw [List.append_assoc]
            rfl
          have h2 : (VA ++ [pv]).length = j + 1 := by
            rw [List.length_append, hVAlen]
            rfl
          rw [h1, ← h2, eraseIdx_append_cons, List.append_assoc]
          rfl
        have hdropNew : ((A ++ p :: B).drop (j + 1)).head? = dnx := by
          have h1 : A ++ p :: B = (A ++ [p]) ++ B := by
            rw [List.append_assoc]
            rfl
          rw [h1, ← hAlen2, List.drop_left, ← segJoin_none]
          exact restS.start_eq.symm
        refine ⟨rfl, ⟨⟨snv, snx⟩, ?_, rfl, ?_⟩, ?_, ⟨da, ?_, ?_⟩, ?_, ?_⟩
        · show ((h.setNext p dnx).free da).get l.head_ = _
          rw [Heap.get_free_ne _ _ hhda, Heap.get_setNext_ne _ _ _ hhp, hsn]
        · rw [heraseAs, heraseVs]
          show ChainSeg ((h.setNext p dnx).free da) snx
            (A ++ p :: B) (VA ++ pv :: VB) none
          have segA2 : ChainSeg ((h.setNext p dnx).free da) snx A VA (some p) := by
            refine segA.congr (fun b hb => ?_)
            have hb1 : b ≠ da := fun he => hdaA (he ▸ hb)
            have hb2 : b ≠ p := fun he => hpA (he ▸ hb)
            rw [Heap.get_free_ne _ _ hb1, Heap.get_setNext_ne _ _ _ hb2]
          have hp2 : ((h.setNext p dnx).free da).get p = some ⟨pv, dnx⟩ := by
            rw [Heap.get_free_ne _ _ hpda, Heap.get_setNext_self hgp2]
          have segB2 : ChainSeg ((h.setNext p dnx).free da) dnx B VB none := by
            refine restS.congr (fun b hb => ?_)
            have hb1 : b ≠ da := fun he => hdaB (he ▸ hb)
            have hb2 : b ≠ p := fun he => hpB (he ▸ hb)
            rw [Heap.get_free_ne _ _ hb1, Heap.get_setNext_ne _ _ _ hb2]
          exact segA2.append (ChainSeg.cons hp2 segB2)
        · rw [heraseAs]
          exact hdropNew.symm
        · have h1 : A ++ p :: da :: B = (A ++ [p]) ++ da :: B := by
            rw [List.append_assoc]
            rfl
          rw [h1, ← hAlen2, drop_append_cons]
          rfl
        · exact Heap.get_free_self _ _
        · intro b hb1 hb2
          have hbda : b ≠ da := fun he => hb2 (he ▸ (List.mem_append_right A
            (List.mem_cons_of_mem _ (List.mem_cons_self _ _))))
          have hbp : b ≠ p := fun he => hb2 (he ▸ (List.mem_append_right A
            (List.mem_cons_self _ _)))
          show ((h.setNext p dnx).free da).get b = _
          rw [Heap.get_free_ne _ _ hbda, Heap.get_setNext_ne _ _ _ hbp]
        · show ((h.setNext p dnx).free da).mem.length = _
          rw [Heap.length_free, Heap.length_setNext]

theorem EraseAfter_end {h : Heap α} {l : SingleLinkedList} {sn : Node α}
    {as : List Nat} {vs : List α}
    (hsn : h.get l.head_ = some sn)
    (hchain : ChainSeg h sn.next_node as vs none)
    (hhead : l.head_ ∉ as) :
    EraseAfter h l (advN h as.length (before_begin l)) = (h, l, none) := by
  obtain ⟨snv, snx⟩ := sn
  cases has : as with
  | nil =>
    subst has
    have hsnx : snx = none := hchain.start_eq
    subst hsnx
    show EraseAfter h l (some l.head_) = (h, l, none)
    simp only [EraseAfter, hsn]
  | cons a as2 =>
    subst has
    obtain ⟨A, p, S, VA, pv, VS, hasd, hvs, hAlen, hVAlen, segA, hgp, segS⟩ :=
      chain_split_idx as2.length hchain (by simp)
    have hS : S = [] := by
      have := congrArg List.length hasd
      rw [List.length_cons, List.length_append, List.length_cons] at this
      have hlen : as2.length + 1 = A.length + (S.length + 1) := this
      rw [hAlen] at hlen
      cases S with
      | nil => rfl
      | cons x xs => simp at hlen
    subst hS
    have hgp2 : h.get p = some ⟨pv, none⟩ := hgp
    have hincr : incr h (some l.head_) = snx := by
      simp [incr, hsn]
    have hposeq : advN h (a :: as2).length (before_begin l) = some p := by
      show advN h (as2.length + 1) (before_begin l) = some p
      show advN h as2.length (incr h (some l.head_)) = some p
      rw [hincr, advN_chain as2.length hchain, hasd, ← hAlen,
        drop_append_cons]
      rfl
    rw [hposeq]
    simp only [EraseAfter, hgp2]

theorem validPos_advN {h : Heap α} {l : SingleLinkedList} {sn : Node α}
    {as : List Nat} {vs : List α} (hsn : h.get l.head_ = some sn)
    (hchain : ChainSeg h sn.next_node as vs none) {pos : Option Nat}
    (hpos : ValidPos h l pos) :
    ∃ i, i ≤ as.length ∧ pos = advN h i (before_begin l) := by
  obtain ⟨p, rfl, hinl⟩ := hpos
  rcases (InList_iff hsn hchain p).mp hinl with rfl | hp
  · exact ⟨0, Nat.zero_le _, rfl⟩
  · obtain ⟨j, hj, hpj⟩ := List.mem_iff_getElem.mp hp
    refine ⟨j + 1, by omega, ?_⟩
    obtain ⟨snv, snx⟩ := sn
    have hincr : incr h (some l.head_) = snx := by
      simp [incr, hsn]
    show some p = advN h j (incr h (some l.head_))
    rw [hincr, advN_chain j hchain, List.drop_eq_getElem_cons hj, hpj]
    rfl

theorem InsertAfter_spec {h : Heap α} {l : SingleLinkedList} {sn : Node α}
    {as : List Nat} {vs : List α} {p : Nat}
    (hsn : h.get l.head_ = some sn)
    (hchain : ChainSeg h sn.next_node as vs none)
    (hhead : l.head_ ∉ as) (hinl : p = l.head_ ∨ p ∈ as) (v : α) :
    (InsertAfter h l (some p) v).2.1 = ⟨l.head_, l.size_ + 1⟩ ∧
    (∃ (sn2 : Node α) (as2 : List Nat) (vs2 : List α),
      ((InsertAfter h l (some p) v).1).get l.head_ = some sn2 ∧
      sn2.value = sn.value ∧
      ChainSeg (InsertAfter h l (some p) v).1 sn2.next_node as2 vs2 none ∧
      as2.length = as.length + 1 ∧
      (∀ x ∈ as2, x ∈ as ∨ x = h.mem.length)) ∧
    (∀ b, b ≠ p → b < h.mem.length →
      ((InsertAfter h l (some p) v).1).get b = h.get b) ∧
    ((InsertAfter h l (some p) v).1).mem.length = h.mem.length + 1 := by
  have hheadlt : l.head_ < h.mem.length := Heap.lt_of_get_eq_some hsn
  rcases hinl with rfl | hp
  · -- insert right after the sentinel
    have hr : InsertAfter h l (some l.head_) v =
        (((h.alloc ⟨v, sn.next_node⟩).1).setNext l.head_
          (some (h.alloc ⟨v, sn.next_node⟩).2),
         ⟨l.head_, l.size_ + 1⟩, some (h.alloc ⟨v, sn.next_node⟩).2) := by
      simp only [InsertAfter, InsertAfterChecked, hsn]
    have ha1 : ((h.alloc ⟨v, sn.next_node⟩).1).get l.head_ = some sn :=
      Heap.get_alloc_of_get_eq_some hsn
    have hgA : ((h.alloc ⟨v, sn.next_node⟩).1).get h.mem.length
        = some ⟨v, sn.next_node⟩ := by
      rw [Heap.get_alloc, if_pos rfl]
    refine ⟨by rw [hr], ⟨⟨sn.value, some h.mem.length⟩, h.mem.length :: as,
      v :: vs, ?_, rfl, ?_, by simp, ?_⟩, ?_, ?_⟩
    · rw [hr]
      show (((h.alloc ⟨v, sn.next_node⟩).1).setNext l.head_
          (some h.mem.length)).get l.head_ = _
      rw [Heap.get_setNext_self ha1]
    · rw [hr]
      show ChainSeg (((h.alloc ⟨v, sn.next_node⟩).1).setNext l.head_
          (some h.mem.length)) (some h.mem.length) _ _ _
      refine @ChainSeg.cons α _ _ _ sn.next_node _ _ _ ?_ ?_
      · rw [Heap.get_setNext_ne _ _ _ (by omega), hgA]
      · refine hchain.congr (fun a ha => ?_)
        have halt : a < h.mem.length := hchain.mem_lt a ha
        have hane : a ≠ l.head_ := fun he => hhead (he ▸ ha)
        rw [Heap.get_setNext_ne _ _ _ hane, Heap.get_alloc, if_neg (by omega)]
    · intro x hx
      rcases List.mem_cons.mp hx with rfl | hx2
      · exact Or.inr rfl
      · exact Or.inl hx2
    · intro b hbp hblt
      rw [hr]
      show (((h.alloc ⟨v, sn.next_node⟩).1).setNext l.head_
          (some h.mem.length)).get b = _
      rw [Heap.get_setNext_ne _ _ _ hbp, Heap.get_alloc, if_neg (by omega)]
    · rw [hr]
      show (((h.alloc ⟨v, sn.next_node⟩).1).setNext l.head_
          (some h.mem.length)).mem.length = _
      rw [Heap.length_setNext, Heap.length_alloc]
  · -- insert after a real node p
    obtain ⟨j, hj, hpj⟩ := List.mem_iff_getElem.mp hp
    obtain ⟨A, q, S, VA, qv, VS, has, hvs, hAlen, hVAlen, segA, hgq, segS⟩ :=
      chain_split_idx j hchain hj
    have hq : p = q := by
      have h1 : (as.drop j).head? = some q := by
        rw [has, ← hAlen, drop_append_cons]
        rfl
      have h2 : (as.drop j).head? = some p := by
        rw [List.drop_eq_getElem_cons hj, hpj]
        rfl
      rw [h2] at h1
      exact Option.some.inj h1
    subst hq
    subst has
    subst hvs
    have hnd := hchain.nodup
    rw [List.nodup_append] at hnd
    obtain ⟨hndA, hndR, hdisj⟩ := hnd
    have hqA : p ∉ A := fun hm => hdisj hm (List.mem_cons_self _ _)
    have hqS : p ∉ S := (List.nodup_cons.mp hndR).1
    have hhp : l.head_ ≠ p := fun he => hhead (he ▸
      List.mem_append_right A (List.mem_cons_self _ _))
    have hhA : l.head_ ∉ A := fun hm => hhead (List.mem_append_left _ hm)
    have hhS : l.head_ ∉ S := fun hm => hhead (List.mem_append_right A
      (List.mem_cons_of_mem _ hm))
    have hplt : p < h.mem.length := Heap.lt_of_get_eq_some hgq
    have hr : InsertAfter h l (some p) v =
        (((h.alloc ⟨v, segJoin S none⟩).1).setNext p
          (some (h.alloc ⟨v, segJoin S none⟩).2),
         ⟨l.head_, l.size_ + 1⟩, some (h.alloc ⟨v, segJoin S none⟩).2) := by
      simp only [InsertAfter, InsertAfterChecked, hgq]
    have ha1 : ((h.alloc ⟨v, segJoin S none⟩).1).get p
        = some ⟨qv, segJoin S none⟩ :=
      Heap.get_alloc_of_get_eq_some hgq
    have hgF : ((h.alloc ⟨v, segJoin S none⟩).1).get h.mem.length
        = some ⟨v, segJoin S none⟩ := by
      rw [Heap.get_alloc, if_pos rfl]
    have hframe : ∀ b, b ≠ p → b < h.mem.length →
        ((((h.alloc ⟨v, segJoin S none⟩).1).setNext p
          (some h.mem.length))).get b = h.get b := by
      intro b hbp hblt
      rw [Heap.get_setNext_ne _ _ _ hbp, Heap.get_alloc, if_neg (by omega)]
    refine ⟨by rw [hr], ⟨sn, A ++ p :: h.mem.length :: S,
      VA ++ qv :: v :: VS, ?_, rfl, ?_, ?_, ?_⟩, ?_, ?_⟩
    · rw [hr]
      show ((((h.alloc ⟨v, segJoin S none⟩).1).setNext p
          (some h.mem.length))).get l.head_ = _
      rw [hframe l.head_ hhp hheadlt, hsn]
    · rw [hr]
      show ChainSeg ((((h.alloc ⟨v, segJoin S none⟩).1).setNext p
          (some h.mem.length))) sn.next_node _ _ _
      have segA2 : ChainSeg ((((h.alloc ⟨v, segJoin S none⟩).1).setNext p
          (some h.mem.length))) sn.next_node A VA (some p) := by
        refine segA.congr (fun b hb => ?_)
        exact hframe b (fun he => hqA (he ▸ hb)) (segA.mem_lt b hb)
      have hp2 : ((((h.alloc ⟨v, segJoin S none⟩).1).setNext p
          (some h.mem.length))).get p = some ⟨qv, some h.mem.length⟩ :=
        Heap.get_setNext_self ha1 _
      have hF2 : ((((h.alloc ⟨v, segJoin S none⟩).1).setNext p
          (some h.mem.length))).get h.mem.length = some ⟨v, segJoin S none⟩ := by
        rw [Heap.get_setNext_ne _ _ _ (by omega), hgF]
      have segS2 : ChainSeg ((((h.alloc ⟨v, segJoin S none⟩).1).setNext p
          (some h.mem.length))) (segJoin S none) S VS none := by
        refine segS.congr (fun b hb => ?_)
        exact hframe b (fun he => hqS (he ▸ hb)) (segS.mem_lt b hb)
      exact segA2.append (ChainSeg.cons hp2 (ChainSeg.cons hF2 segS2))
    · simp only [List.length_append, List.length_cons]
      omega
    · intro x hx
      rcases List.mem_append.mp hx with hxa | hxr
      · exact Or.inl (List.mem_append_left _ hxa)
      · rcases List.mem_cons.mp hxr with rfl | hxr2
        · exact Or.inl (List.mem_append_right A (List.mem_cons_self _ _))
        · rcases List.mem_cons.mp hxr2 with rfl | hxr3
          · exact Or.inr rfl
          · exact Or.inl (List.mem_append_right A (List.mem_cons_of_mem _ hxr3))
    · intro b hbp hblt
      rw [hr]
      exact hframe b hbp hblt
    · rw [hr]
      show ((((h.alloc ⟨v, segJoin S none⟩).1).setNext p
          (some h.mem.length))).mem.length = _
      rw [Heap.length_setNext, Heap.length_alloc]

theorem copyCtorBuild_spec [Inhabited α] {h2 : Heap α} {sa ta : Nat}
    {sv tv : α} (vals : List α)
    (hsa : h2.get sa = some ⟨sv, none⟩) (hta : h2.get ta = some ⟨tv, none⟩)
    (hne : sa ≠ ta) :
    (copyCtorBuild h2 sa ta vals).2 = ⟨sa, vals.length⟩ ∧
    (∃ as2 : List Nat,
      ((copyCtorBuild h2 sa ta vals).1).get sa = some ⟨sv, segJoin as2 none⟩ ∧
      ChainSeg (copyCtorBuild h2 sa ta vals).1 (segJoin as2 none) as2 vals none ∧
      as2.length = vals.length ∧
      (∀ x ∈ as2, h2.mem.length ≤ x)) ∧
    ((copyCtorBuild h2 sa ta vals).1).get ta = none ∧
    (∀ b, b ≠ sa → b ≠ ta → b < h2.mem.length →
      ((copyCtorBuild h2 sa ta vals).1).get b = h2.get b) ∧
    h2.mem.length ≤ ((copyCtorBuild h2 sa ta vals).1).mem.length := by
  have hsalt : sa < h2.mem.length := Heap.lt_of_get_eq_some hsa
  have htalt : ta < h2.mem.length := Heap.lt_of_get_eq_some hta
  obtain ⟨as2, hk, hta3, hchain3, hfresh, hframe3, hmono3⟩ :=
    initLoop_spec vals h2 ta tv hta
  have hsa3 : ((initLoop h2 ta vals).1).get sa = some ⟨sv, none⟩ := by
    rw [hframe3 sa hne hsalt, hsa]
  have hsw : swapLists (initLoop h2 ta vals).1 ⟨sa, 0⟩
      ⟨ta, (initLoop h2 ta vals).2.2⟩ =
      ((((initLoop h2 ta vals).1).setNext sa (segJoin as2 none)).setNext ta none,
        ⟨sa, (initLoop h2 ta vals).2.2⟩, ⟨ta, 0⟩) := by
    simp only [swapLists, hsa3, hta3]
  have hr : copyCtorBuild h2 sa ta vals =
      (destroyList
        ((swapLists (initLoop h2 ta vals).1 ⟨sa, 0⟩
          ⟨ta, (initLoop h2 ta vals).2.2⟩).1)
        ((swapLists (initLoop h2 ta vals).1 ⟨sa, 0⟩
          ⟨ta, (initLoop h2 ta vals).2.2⟩).2.2),
       (swapLists (initLoop h2 ta vals).1 ⟨sa, 0⟩
          ⟨ta, (initLoop h2 ta vals).2.2⟩).2.1) := rfl
  rw [hr, hsw]
  -- the heap after the swap
  have hgsa4 : ((((initLoop h2 ta vals).1).setNext sa
      (segJoin as2 none)).setNext ta none).get sa
      = some ⟨sv, segJoin as2 none⟩ := by
    rw [Heap.get_setNext_ne _ _ _ hne, Heap.get_setNext_self hsa3]
  have hgta4 : ((((initLoop h2 ta vals).1).setNext sa
      (segJoin as2 none)).setNext ta none).get ta = some ⟨tv, none⟩ := by
    have h1 : (((initLoop h2 ta vals).1).setNext sa (segJoin as2 none)).get ta
        = some ⟨tv, segJoin as2 none⟩ := by
      rw [Heap.get_setNext_ne _ _ _ (fun he => hne he.symm), hta3]
    exact Heap.get_setNext_self h1 _
  -- the destruction of the (now empty) temporary reduces to freeing `ta`
  have hclr : ∀ fuel, clearLoop ((((initLoop h2 ta vals).1).setNext sa
      (segJoin as2 none)).setNext ta none) ta (fuel + 1)
      = (((initLoop h2 ta vals).1).setNext sa (segJoin as2 none)).setNext ta none := by
    intro fuel
    simp only [clearLoop, hgta4]
  have hdes : destroyList ((((initLoop h2 ta vals).1).setNext sa
      (segJoin as2 none)).setNext ta none) (⟨ta, 0⟩ : SingleLinkedList)
      = ((((initLoop h2 ta vals).1).setNext sa
          (segJoin as2 none)).setNext ta none).free ta := by
    show ((clearLoop ((((initLoop h2 ta vals).1).setNext sa
        (segJoin as2 none)).setNext ta none) ta _).free ta) = _
    rw [hclr]
  rw [hdes]
  have hfreshne : ∀ x ∈ as2, x ≠ sa ∧ x ≠ ta := by
    intro x hx
    have := hfresh x hx
    omega
  refine ⟨by rw [hk], ⟨as2, ?_, ?_, ?_, hfresh⟩, ?_, ?_, ?_⟩
  · rw [Heap.get_free_ne _ _ hne, hgsa4]
  · refine (hchain3.congr (fun x hx => ?_))
    obtain ⟨hx1, hx2⟩ := hfreshne x hx
    rw [Heap.get_free_ne _ _ hx2, Heap.get_setNext_ne _ _ _ hx2,
      Heap.get_setNext_ne _ _ _ hx1]
  · exact hchain3.length_eq
  · exact Heap.get_free_self _ _
  · intro b hbsa hbta hblt
    rw [Heap.get_free_ne _ _ hbta, Heap.get_setNext_ne _ _ _ hbta,
      Heap.get_setNext_ne _ _ _ hbsa, hframe3 b hbta hblt]
  · rw [Heap.length_free, Heap.length_setNext, Heap.length_setNext]
    exact hmono3

theorem copyCtor_spec [Inhabited α] {h : Heap α} {other : SingleLinkedList}
    {sn : Node α} {as : List Nat} {vs : List α}
    (hsn : h.get other.head_ = some sn)
    (hchain : ChainSeg h sn.next_node as vs none)
    (hsz : as.length = other.size_) :
    ∃ (sn2 : Node α) (as2 : List Nat),
      (copyCtor h other).2.head_ = h.mem.length ∧
      (copyCtor h other).2.size_ = other.size_ ∧
      ((copyCtor h other).1).get h.mem.length = some sn2 ∧
      ChainSeg (copyCtor h other).1 sn2.next_node as2 vs none ∧
      as2.length = as.length ∧
      (∀ x ∈ as2, h.mem.length < x) ∧
      (∀ b, b < h.mem.length → ((copyCtor h other).1).get b = h.get b) ∧
      h.mem.length < ((copyCtor h other).1).mem.length := by
  by_cases hsz0 : other.size_ = 0
  · -- empty source: only this list's sentinel is allocated
    have hie : IsEmpty other = true := by
      simp [IsEmpty, hsz0]
    have has : as = [] := List.eq_nil_of_length_eq_zero (by omega)
    subst has
    have hvs : vs = [] := List.eq_nil_of_length_eq_zero (by
      rw [← hchain.length_eq]
      rfl)
    subst hvs
    have hr : copyCtor h other
        = ((h.alloc ⟨(default : α), none⟩).1, ⟨h.mem.length, 0⟩) := by
      show (if IsEmpty other then ((h.alloc ⟨(default : α), none⟩).1,
          (⟨h.mem.length, 0⟩ : SingleLinkedList))
        else _) = _
      rw [hie]
      simp only [if_true]
    rw [hr]
    refine ⟨⟨default, none⟩, [], rfl, by rw [hsz0], ?_, ChainSeg.nil none, rfl,
      by simp, ?_, ?_⟩
    · rw [Heap.get_alloc, if_pos rfl]
    · intro b hb
      rw [Heap.get_alloc, if_neg (by omega)]
    · rw [Heap.length_alloc]
      omega
  · have hie : IsEmpty other = false := by
      simp only [IsEmpty, beq_eq_false_iff_ne, ne_eq]
      exact hsz0
    have hohlt : other.head_ < h.mem.length := Heap.lt_of_get_eq_some hsn
    have hlen1 : ((h.alloc ⟨(default : α), none⟩).1).mem.length
        = h.mem.length + 1 := Heap.length_alloc _ _
    have hlen2 : (((h.alloc ⟨(default : α), none⟩).1).alloc
        ⟨(default : α), none⟩).1.mem.length = h.mem.length + 2 := by
      rw [Heap.length_alloc, hlen1]
    -- the two fresh sentinels
    have hsa2 : ((((h.alloc ⟨(default : α), none⟩).1).alloc
        ⟨(default : α), none⟩).1).get h.mem.length = some ⟨default, none⟩ := by
      refine Heap.get_alloc_of_get_eq_some ?_
      rw [Heap.get_alloc, if_pos rfl]
    have hta2 : ((((h.alloc ⟨(default : α), none⟩).1).alloc
        ⟨(default : α), none⟩).1).get
          ((h.alloc ⟨(default : α), none⟩).1).mem.length
        = some ⟨default, none⟩ := by
      rw [Heap.get_alloc, if_pos rfl]
    -- the source is untouched by the two allocations
    have hpres : ∀ b, b < h.mem.length →
        ((((h.alloc ⟨(default : α), none⟩).1).alloc
          ⟨(default : α), none⟩).1).get b = h.get b := by
      intro b hb
      rw [Heap.get_alloc, if_neg (by omega), Heap.get_alloc, if_neg (by omega)]
    have hsn2 : ((((h.alloc ⟨(default : α), none⟩).1).alloc
        ⟨(default : α), none⟩).1).get other.head_ = some sn := by
      rw [hpres other.head_ hohlt, hsn]
    have hchain2 : ChainSeg ((((h.alloc ⟨(default : α), none⟩).1).alloc
        ⟨(default : α), none⟩).1) sn.next_node as vs none :=
      hchain.congr (fun a ha => hpres a (hchain.mem_lt a ha))
    have hbeg : begin ((((h.alloc ⟨(default : α), none⟩).1).alloc
        ⟨(default : α), none⟩).1) other = sn.next_node := by
      simp [begin, hsn2]
    have hfuel : as.length < (((h.alloc ⟨(default : α), none⟩).1).alloc
        ⟨(default : α), none⟩).1.mem.length + 1 := by
      have := chain_length_le hchain
      omega
    have heq : chainListF ((((h.alloc ⟨(default : α), none⟩).1).alloc
        ⟨(default : α), none⟩).1)
        ((((h.alloc ⟨(default : α), none⟩).1).alloc
          ⟨(default : α), none⟩).1.mem.length + 1)
        (begin ((((h.alloc ⟨(default : α), none⟩).1).alloc
          ⟨(default : α), none⟩).1) other) = some (as, vs) := by
      rw [hbeg]
      exact chainListF_eq hchain2 _ hfuel
    have hr : copyCtor h other = copyCtorBuild
        ((((h.alloc ⟨(default : α), none⟩).1).alloc ⟨(default : α), none⟩).1)
        h.mem.length ((h.alloc ⟨(default : α), none⟩).1).mem.length vs := by
      show (if IsEmpty other then ((h.alloc ⟨(default : α), none⟩).1,
          (⟨h.mem.length, 0⟩ : SingleLinkedList))
        else copyCtorBuild
          ((((h.alloc ⟨(default : α), none⟩).1).alloc ⟨(default : α), none⟩).1)
          h.mem.length ((h.alloc ⟨(default : α), none⟩).1).mem.length
          (match chainListF ((((h.alloc ⟨(default : α), none⟩).1).alloc
              ⟨(default : α), none⟩).1)
              ((((h.alloc ⟨(default : α), none⟩).1).alloc
                ⟨(default : α), none⟩).1.mem.length + 1)
              (begin ((((h.alloc ⟨(default : α), none⟩).1).alloc
                ⟨(default : α), none⟩).1) other) with
            | some (_, ws) => ws
            | none => [])) = _
      rw [hie, heq]
      simp only [Bool.false_eq_true, if_false]
    obtain ⟨hb1, ⟨as2, hb2, hb3, hb4, hb5⟩, hb6, hb7, hb8⟩ :=
      copyCtorBuild_spec vs hsa2 hta2 (by omega)
    rw [hr]
    refine ⟨⟨default, segJoin as2 none⟩, as2, ?_, ?_, hb2, hb3, ?_, ?_, ?_, ?_⟩
    · rw [hb1]
    · rw [hb1]
      show vs.length = other.size_
      rw [← hchain.length_eq, hsz]
    · rw [hb4, ← hchain.length_eq]
    · intro x hx
      have := hb5 x hx
      omega
    · intro b hb
      rw [hb7 b (by omega) (by omega) (by omega), hpres b hb]
    · omega

theorem toListF_eq {h : Heap α} {l : SingleLinkedList} {sn : Node α}
    {as : List Nat} {vs : List α} (hsn : h.get l.head_ = some sn)
    (hchain : ChainSeg h sn.next_node as vs none) :
    toListF h l = some vs := by
  have hb : begin h l = sn.next_node := by
    simp [begin, hsn]
  have hlen : as.length < h.mem.length + 1 :=
    Nat.lt_succ_of_le (chain_length_le hchain)
  rw [toListF, hb, chainListF_eq hchain _ hlen]

theorem stdEqualIt_eq [DecidableEq α] {h : Heap α} :
    ∀ (v1 : List α) {s1 : Option Nat} {a1 : List Nat}
      {s2 : Option Nat} {a2 : List Nat} {v2 : List α},
      ChainSeg h s1 a1 v1 none → ChainSeg h s2 a2 v2 none →
      ∀ fuel, v1.length < fuel →
        stdEqualIt h fuel s1 s2 = stdEqual v1 v2 := by
  intro v1
  induction v1 with
  | nil =>
    intro s1 a1 s2 a2 v2 hc1 hc2 fuel hf
    have ha1 : a1 = [] := List.eq_nil_of_length_eq_zero (by
      rw [hc1.length_eq]
      rfl)
    subst ha1
    have hs1 : s1 = none := hc1.start_eq
    subst hs1
    cases fuel with
    | zero => cases hf
    | succ f => rfl
  | cons x xs ih =>
    intro s1 a1 s2 a2 v2 hc1 hc2 fuel hf
    cases hc1 with
    | cons hgb1 rest1 =>
      rename_i b1 nx1 a1'
      cases fuel with
      | zero => cases hf
      | succ f =>
        cases hc2 with
        | nil =>
          simp only [stdEqualIt, hgb1]
          rfl
        | cons hgb2 rest2 =>
          rename_i b2 y nx2 a2' v2'
          by_cases hxy : x = y
          · subst hxy
            have hrec := ih rest1 rest2 f (by
              simp only [List.length_cons] at hf
              omega)
            simp only [stdEqualIt, hgb1, hgb2, if_pos rfl, hrec, stdEqual]
          · simp only [stdEqualIt, hgb1, hgb2, if_neg hxy, stdEqual]

theorem lexIt_eq [LT α] [DecidableRel (· < · : α → α → Prop)] {h : Heap α} :
    ∀ (v1 : List α) {s1 : Option Nat} {a1 : List Nat}
      {s2 : Option Nat} {a2 : List Nat} {v2 : List α},
      ChainSeg h s1 a1 v1 none → ChainSeg h s2 a2 v2 none →
      ∀ fuel, v1.length < fuel →
        lexIt h fuel s1 s2 = some (lexLt v1 v2) := by
  intro v1
  induction v1 with
  | nil =>
    intro s1 a1 s2 a2 v2 hc1 hc2 fuel hf
    have ha1 : a1 = [] := List.eq_nil_of_length_eq_zero (by
      rw [hc1.length_eq]
      rfl)
    subst ha1
    have hs1 : s1 = none := hc1.start_eq
    subst hs1
    cases fuel with
    | zero => cases hf
    | succ f =>
      cases hc2 with
      | nil => rfl
      | cons hgb2 rest2 => rfl
  | cons x xs ih =>
    intro s1 a1 s2 a2 v2 hc1 hc2 fuel hf
    cases hc1 with
    | cons hgb1 rest1 =>
      rename_i b1 nx1 a1'
      cases fuel with
      | zero => cases hf
      | succ f =>
        cases hc2 with
        | nil => rfl
        | cons hgb2 rest2 =>
          rename_i b2 y nx2 a2' v2'
          have hrec := ih rest1 rest2 f (by
            simp only [List.length_cons] at hf
            omega)
          by_cases hxy : x < y
          · simp only [lexIt, hgb1, hgb2, if_pos hxy, lexLt]
          · by_cases hyx : y < x
            · simp only [lexIt, hgb1, hgb2, if_neg hxy, if_pos hyx, lexLt]
            · simp only [lexIt, hgb1, hgb2, if_neg hxy, if_neg hyx, hrec, lexLt]

theorem stdEqual_refl [DecidableEq α] : ∀ v : List α, stdEqual v v = some true
  | [] => rfl
  | x :: xs => by
    simp only [stdEqual, if_pos rfl]
    exact stdEqual_refl xs

theorem lexLt_self [LinearOrder α] : ∀ v : List α, lexLt v v = false
  | [] => rfl
  | x :: xs => by
    simp only [lexLt, lt_irrefl, if_false]
    exact lexLt_self xs

theorem opAssign_spec [Inhabited α] {h : Heap α} {l rhs : SingleLinkedList}
    {snl snr : Node α} {asl asr : List Nat} {vsl vsr : List α}
    (hsnl : h.get l.head_ = some snl)
    (hchl : ChainSeg h snl.next_node asl vsl none)
    (hheadl : l.head_ ∉ asl)
    (hsnr : h.get rhs.head_ = some snr)
    (hchr : ChainSeg h snr.next_node asr vsr none)
    (hszr : asr.length = rhs.size_) :
    ∃ (sn2 : Node α) (as2 : List Nat),
      (opAssign h l rhs).2.head_ = l.head_ ∧
      (opAssign h l rhs).2.size_ = rhs.size_ ∧
      ((opAssign h l rhs).1).get l.head_ = some sn2 ∧
      ChainSeg (opAssign h l rhs).1 sn2.next_node as2 vsr none ∧
      as2.length = asr.length ∧ l.head_ ∉ as2 := by
  have hhl : l.head_ < h.mem.length := Heap.lt_of_get_eq_some hsnl
  obtain ⟨sn2, as2, hc1, hc2, hc3, hc4, hc5, hc6, hc7, hc8⟩ :=
    copyCtor_spec hsnr hchr hszr
  -- the original list is untouched by the copy construction
  have hsnl1 : ((copyCtor h rhs).1).get l.head_ = some snl := by
    rw [hc7 l.head_ hhl, hsnl]
  have hchl1 : ChainSeg (copyCtor h rhs).1 snl.next_node asl vsl none :=
    hchl.congr (fun a ha => hc7 a (hchl.mem_lt a ha))
  have hsnt1 : ((copyCtor h rhs).1).get (copyCtor h rhs).2.head_ = some sn2 := by
    rw [hc1]
    exact hc3
  have haslt : ∀ a ∈ asl, a < h.mem.length := fun a ha => hchl.mem_lt a ha
  have hne : l.head_ ≠ (copyCtor h rhs).2.head_ := by
    rw [hc1]
    omega
  have h1n2 : l.head_ ∉ as2 := fun hm => by
    have := hc6 _ hm
    omega
  have h2n1 : (copyCtor h rhs).2.head_ ∉ asl := fun hm => by
    have := haslt _ hm
    rw [hc1] at this
    omega
  have h2n2 : (copyCtor h rhs).2.head_ ∉ as2 := fun hm => by
    have := hc6 _ hm
    rw [hc1] at this
    omega
  obtain ⟨hs1, hs2, hs3, hs4, hs5, hs6, hs7, hs8⟩ :=
    swapLists_spec hsnl1 hchl1 hsnt1 hc4 hne h1n2 h2n1 hheadl h2n2
  -- after the swap, the temporary holds the original chain of `l`
  have htmp : (swapLists (copyCtor h rhs).1 l (copyCtor h rhs).2).2.2
      = ⟨(copyCtor h rhs).2.head_, l.size_⟩ := hs2
  have hsnt2 : ((swapLists (copyCtor h rhs).1 l (copyCtor h rhs).2).1).get
      ((swapLists (copyCtor h rhs).1 l (copyCtor h rhs).2).2.2).head_
      = some ⟨sn2.value, snl.next_node⟩ := by
    rw [htmp]
    exact hs4
  have hhead2 : ((swapLists (copyCtor h rhs).1 l (copyCtor h rhs).2).2.2).head_
      ∉ asl := by
    rw [htmp]
    exact h2n1
  obtain ⟨hd1, hd2, hd3, hd4, hd5, hd6⟩ := Clear_spec hsnt2 hs6 hhead2
  -- the assignment is: copy, swap, destroy the temporary
  have hr : opAssign h l rhs =
      ((destroyList (swapLists (copyCtor h rhs).1 l (copyCtor h rhs).2).1
          (swapLists (copyCtor h rhs).1 l (copyCtor h rhs).2).2.2),
        (swapLists (copyCtor h rhs).1 l (copyCtor h rhs).2).2.1) := rfl
  have hdes : destroyList (swapLists (copyCtor h rhs).1 l (copyCtor h rhs).2).1
      (swapLists (copyCtor h rhs).1 l (copyCtor h rhs).2).2.2
      = ((Clear (swapLists (copyCtor h rhs).1 l (copyCtor h rhs).2).1
          (swapLists (copyCtor h rhs).1 l (copyCtor h rhs).2).2.2).1).free
        ((swapLists (copyCtor h rhs).1 l (copyCtor h rhs).2).2.2).head_ := rfl
  refine ⟨⟨snl.value, sn2.next_node⟩, as2, ?_, ?_, ?_, ?_, ?_, h1n2⟩
  · rw [hr, hs1]
  · rw [hr, hs1]
    show (copyCtor h rhs).2.size_ = rhs.size_
    exact hc2
  · rw [hr, hdes]
    have hne2 : l.head_ ≠ ((swapLists (copyCtor h rhs).1 l
        (copyCtor h rhs).2).2.2).head_ := by
      rw [htmp]
      exact hne
    rw [Heap.get_free_ne _ _ hne2, hd5 l.head_ hne2 hheadl, hs3]
  · rw [hr, hdes]
    refine hs5.congr (fun x hx => ?_)
    have hx1 : x ≠ ((swapLists (copyCtor h rhs).1 l
        (copyCtor h rhs).2).2.2).head_ := by
      rw [htmp]
      intro he
      have he2 : x = (copyCtor h rhs).2.head_ := he
      have h3 := hc6 _ hx
      rw [he2, hc1] at h3
      omega
    have hx2 : x ∉ asl := fun hm => by
      have h1 := hc6 _ hx
      have h2 := haslt _ hm
      omega
    rw [Heap.get_free_ne _ _ hx1, hd5 x hx1 hx2]
  · exact hc5

theorem WF.mk_default [Inhabited α] (h : Heap α) :
    WF (mkEmpty h).1 (mkEmpty h).2 := by
  obtain ⟨he1, he2, he3, he4, he5⟩ := mkEmpty_spec h
  refine ⟨⟨default, none⟩, [], [], ?_, ChainSeg.nil none, ?_, by simp⟩
  · rw [he1]
    exact he3
  · rw [he2]
    rfl

theorem WF.mk_init [Inhabited α] (h : Heap α) (values : List α) :
    WF (fromValues h values).1 (fromValues h values).2 := by
  obtain ⟨as, hf1, hf2, hf3, hf4, hf5, hf6, hf7⟩ := fromValues_spec h values
  refine ⟨⟨default, segJoin as none⟩, as, values, ?_, hf4, ?_, ?_⟩
  · rw [hf1]
    exact hf3
  · rw [hf2, ← hf4.length_eq]
  · intro hm
    have h1 := hf5 _ hm
    rw [hf1] at h1
    omega

theorem WF.mk_copy [Inhabited α] {h : Heap α} {other : SingleLinkedList}
    (hwf : WF h other) : WF (copyCtor h other).1 (copyCtor h other).2 := by
  obtain ⟨sn, as, vs, hsn, hch, hsz, hhd⟩ := hwf
  obtain ⟨sn2, as2, hc1, hc2, hc3, hc4, hc5, hc6, hc7, hc8⟩ :=
    copyCtor_spec hsn hch hsz
  refine ⟨sn2, as2, vs, ?_, hc4, ?_, ?_⟩
  · rw [hc1]
    exact hc3
  · rw [hc2, hc5, hsz]
  · intro hm
    have h1 := hc6 _ hm
    rw [hc1] at h1
    omega

theorem WF.push {h : Heap α} {l : SingleLinkedList} (hwf : WF h l) (v : α) :
    WF (PushFront h l v).1 (PushFront h l v).2 := by
  obtain ⟨sn, as, vs, hsn, hch, hsz, hhd⟩ := hwf
  obtain ⟨hp1, hp2, hp3, hp4, hp5, hp6⟩ := PushFront_spec hsn hch hhd v
  have hlt : l.head_ < h.mem.length := Heap.lt_of_get_eq_some hsn
  refine ⟨⟨sn.value, some h.mem.length⟩, h.mem.length :: as, v :: vs, ?_,
    hp4, ?_, ?_⟩
  · rw [hp1]
    exact hp3
  · rw [hp2]
    simp only [List.length_cons]
    omega
  · rw [hp1]
    intro hm
    rcases List.mem_cons.mp hm with he | hm2
    · omega
    · exact hhd hm2

theorem WF.pop {h : Heap α} {l : SingleLinkedList} (hwf : WF h l) :
    WF (PopFront h l).1 (PopFront h l).2 := by
  obtain ⟨sn, as, vs, hsn, hch, hsz, hhd⟩ := hwf
  by_cases hsz0 : l.size_ = 0
  · have hie : IsEmpty l = true := by
      simp [IsEmpty, hsz0]
    have hpp : PopFront h l = (h, l) := by
      rw [PopFront, hie]
      simp only [if_true]
    rw [hpp]
    exact ⟨sn, as, vs, hsn, hch, hsz, hhd⟩
  · obtain ⟨snv, snx⟩ := sn
    cases has2 : as with
    | nil =>
      rw [has2] at hsz
      exact absurd hsz.symm (by simpa using hsz0)
    | cons fa as2 =>
      subst has2
      cases hch with
      | cons hgf rest =>
        rename_i fv nx vs2
        obtain ⟨nx2, hq0, hq1, hq2, hq3, hq4, hq5, hq6, hq7⟩ :=
          PopFront_spec hsn (ChainSeg.cons hgf rest) hsz0 hhd
        refine ⟨⟨snv, nx2⟩, as2, vs2, ?_, hq4, ?_, ?_⟩
        · rw [hq1]
          exact hq3
        · rw [hq2, ← hsz]
          simp only [List.length_cons]
          omega
        · rw [hq1]
          intro hm
          exact hhd (List.mem_cons_of_mem _ hm)

theorem WF.insert {h : Heap α} {l : SingleLinkedList} {pos : Option Nat}
    (hwf : WF h l) (hpos : ValidPos h l pos) (v : α) :
    WF (InsertAfter h l pos v).1 (InsertAfter h l pos v).2.1 := by
  obtain ⟨sn, as, vs, hsn, hch, hsz, hhd⟩ := hwf
  obtain ⟨p, rfl, hinl⟩ := hpos
  have hinl2 := (InList_iff hsn hch p).mp hinl
  have hlt : l.head_ < h.mem.length := Heap.lt_of_get_eq_some hsn
  obtain ⟨hi1, ⟨sn2, as2, vs2, hi2, hi3, hi4, hi5, hi6⟩, hi7, hi8⟩ :=
    InsertAfter_spec hsn hch hhd hinl2 v
  refine ⟨sn2, as2, vs2, ?_, hi4, ?_, ?_⟩
  · rw [hi1]
    exact hi2
  · rw [hi1, hi5, hsz]
  · rw [hi1]
    show l.head_ ∉ as2
    intro hm
    rcases hi6 _ hm with hm2 | he
    · exact hhd hm2
    · omega

theorem WF.erase {h : Heap α} {l : SingleLinkedList} {pos : Option Nat}
    (hwf : WF h l) (hpos : ValidPos h l pos) :
    WF (EraseAfter h l pos).1 (EraseAfter h l pos).2.1 := by
  obtain ⟨sn, as, vs, hsn, hch, hsz, hhd⟩ := hwf
  obtain ⟨i, hile, hposeq⟩ := validPos_advN hsn hch hpos
  subst hposeq
  rcases Nat.lt_or_ge i as.length with hilt | hieq
  · obtain ⟨he1, ⟨sn2, he2, he3, he4⟩, he5, ⟨da, he6, he7⟩, he8, he9⟩ :=
      EraseAfter_at hsn hch hhd hilt
    refine ⟨sn2, as.eraseIdx i, vs.eraseIdx i, ?_, he4, ?_, ?_⟩
    · rw [he1]
      exact he2
    · rw [he1]
      show (as.eraseIdx i).length = l.size_ - 1
      rw [List.length_eraseIdx]
      simp only [hilt, if_true]
      omega
    · rw [he1]
      intro hm
      exact hhd (List.mem_of_mem_eraseIdx hm)
  · have hieq2 : i = as.length := by omega
    subst hieq2
    rw [EraseAfter_end hsn hch hhd]
    exact ⟨sn, as, vs, hsn, hch, hsz, hhd⟩

theorem WF.clear {h : Heap α} {l : SingleLinkedList} (hwf : WF h l) :
    WF (Clear h l).1 (Clear h l).2 := by
  obtain ⟨sn, as, vs, hsn, hch, hsz, hhd⟩ := hwf
  obtain ⟨hl1, hl2, hl3, hl4, hl5, hl6⟩ := Clear_spec hsn hch hhd
  refine ⟨⟨sn.value, none⟩, [], [], ?_, ChainSeg.nil none, ?_, by simp⟩
  · rw [hl1]
    exact hl3
  · rw [hl2]
    rfl

theorem WF.swap_fst {h : Heap α} {l other : SingleLinkedList}
    (hwf1 : WF h l) (hwf2 : WF h other) (hsep : Sep h l other) :
    WF (swapLists h l other).1 (swapLists h l other).2.1 := by
  obtain ⟨sn1, as1, vs1, hsn1, hch1, hsz1, hhd1⟩ := hwf1
  obtain ⟨sn2, as2, vs2, hsn2, hch2, hsz2, hhd2⟩ := hwf2
  have hin1 : InList h l l.head_ := Or.inl rfl
  have hin2 : InList h other other.head_ := Or.inl rfl
  have hne : l.head_ ≠ other.head_ := fun he =>
    hsep l.head_ hin1 (he ▸ hin2)
  have h1n2 : l.head_ ∉ as2 := fun hm =>
    hsep l.head_ hin1 ((InList_iff hsn2 hch2 _).mpr (Or.inr hm))
  have h2n1 : other.head_ ∉ as1 := fun hm =>
    hsep other.head_ ((InList_iff hsn1 hch1 _).mpr (Or.inr hm)) hin2
  obtain ⟨hs1, hs2, hs3, hs4, hs5, hs6, hs7, hs8⟩ :=
    swapLists_spec hsn1 hch1 hsn2 hch2 hne h1n2 h2n1 hhd1 hhd2
  refine ⟨⟨sn1.value, sn2.next_node⟩, as2, vs2, ?_, hs5, ?_, ?_⟩
  · rw [hs1]
    exact hs3
  · rw [hs1]
    exact hsz2
  · rw [hs1]
    exact h1n2

theorem WF.swap_snd {h : Heap α} {l other : SingleLinkedList}
    (hwf1 : WF h l) (hwf2 : WF h other) (hsep : Sep h other l) :
    WF (swapLists h other l).1 (swapLists h other l).2.2 := by
  obtain ⟨sn1, as1, vs1, hsn1, hch1, hsz1, hhd1⟩ := hwf1
  obtain ⟨sn2, as2, vs2, hsn2, hch2, hsz2, hhd2⟩ := hwf2
  have hin1 : InList h l l.head_ := Or.inl rfl
  have hin2 : InList h other other.head_ := Or.inl rfl
  have hne : other.head_ ≠ l.head_ := fun he =>
    hsep other.head_ hin2 (he ▸ hin1)
  have h1n2 : other.head_ ∉ as1 := fun hm =>
    hsep other.head_ hin2 ((InList_iff hsn1 hch1 _).mpr (Or.inr hm))
  have h2n1 : l.head_ ∉ as2 := fun hm =>
    hsep l.head_ ((InList_iff hsn2 hch2 _).mpr (Or.inr hm)) hin1
  obtain ⟨hs1, hs2, hs3, hs4, hs5, hs6, hs7, hs8⟩ :=
    swapLists_spec hsn2 hch2 hsn1 hch1 hne h1n2 h2n1 hhd2 hhd1
  refine ⟨⟨sn1.value, sn2.next_node⟩, as2, vs2, ?_, hs6, ?_, ?_⟩
  · rw [hs2]
    exact hs4
  · rw [hs2]
    exact hsz2
  · rw [hs2]
    exact h2n1

theorem WF.assign [Inhabited α] {h : Heap α} {l rhs : SingleLinkedList}
    (hwf1 : WF h l) (hwf2 : WF h rhs) :
    WF (opAssign h l rhs).1 (opAssign h l rhs).2 := by
  obtain ⟨sn1, as1, vs1, hsn1, hch1, hsz1, hhd1⟩ := hwf1
  obtain ⟨sn2, as2, vs2, hsn2, hch2, hsz2, hhd2⟩ := hwf2
  obtain ⟨sn3, as3, ha1, ha2, ha3, ha4, ha5, ha6⟩ :=
    opAssign_spec hsn1 hch1 hhd1 hsn2 hch2 hsz2
  refine ⟨sn3, as3, vs2, ?_, ha4, ?_, ?_⟩
  · rw [ha1]
    exact ha3
  · rw [ha2, ha5, hsz2]
  · rw [ha1]
    exact ha6

theorem Reachable.wf [Inhabited α] [DecidableEq α] {h : Heap α}
    {l : SingleLinkedList} (hr : Reachable h l) : WF h l := by
  induction hr with
  | mk_default h0 => exact WF.mk_default h0
  | mk_init h0 values => exact WF.mk_init h0 values
  | mk_copy other hwf => exact WF.mk_copy hwf
  | push v hr ih => exact ih.push v
  | pop hr ih => exact ih.pop
  | insert v hr hpos ih => exact ih.insert hpos v
  | erase hr hpos ih => exact ih.erase hpos
  | clear hr ih => exact ih.clear
  | swap_fst other hr hwf hsep ih => exact ih.swap_fst hwf hsep
  | swap_snd other hr hwf hsep ih => exact WF.swap_snd ih hwf (fun p h1 h2 => hsep p h2 h1)
  | assign rhs hr hwf hsep ih => exact ih.assign hwf

theorem toListF_chain {h : Heap α} {l : SingleLinkedList} {vs : List α}
    (ht : toListF h l = some vs) :
    ∃ as : List Nat, ChainSeg h (begin h l) as vs none := by
  unfold toListF at ht
  split at ht
  · cases ht
  · rename_i as2 vs2 heq
    simp only [Option.some.injEq] at ht
    subst ht
    exact ⟨as2, chainListF_sound _ _ _ _ heq⟩

theorem applyMut_frame {h : Heap α} {l : SingleLinkedList} {sn : Node α}
    {as : List Nat} {vs : List α}
    (hsn : h.get l.head_ = some sn)
    (hchain : ChainSeg h sn.next_node as vs none)
    (hsz : as.length = l.size_) (hhd : l.head_ ∉ as)
    (m : Mutation α) (hok : MutOK h l m) :
    ∀ b, b ≠ l.head_ → b ∉ as → b < h.mem.length →
      ((applyMut h l m).1).get b = h.get b := by
  intro b hb1 hb2 hb3
  cases m with
  | push v =>
    exact (PushFront_spec hsn hchain hhd v).2.2.2.2.1 b hb1 hb3
  | pop =>
    by_cases hsz0 : l.size_ = 0
    · have hie : IsEmpty l = true := by
        simp [IsEmpty, hsz0]
      have hpp : PopFront h l = (h, l) := by
        rw [PopFront, hie]
        simp only [if_true]
      show ((PopFront h l).1).get b = h.get b
      rw [hpp]
    · obtain ⟨snv, snx⟩ := sn
      cases has2 : as with
      | nil =>
        rw [has2] at hsz
        exact absurd hsz.symm (by simpa using hsz0)
      | cons fa as2 =>
        subst has2
        cases hchain with
        | cons hgf rest =>
          obtain ⟨nx2, hq0, hq1, hq2, hq3, hq4, hq5, hq6, hq7⟩ :=
            PopFront_spec hsn (ChainSeg.cons hgf rest) hsz0 hhd
          exact hq6 b hb1 (fun he => hb2 (he ▸ List.mem_cons_self _ _))
  | insertA pos v =>
    obtain ⟨p, rfl, hinl⟩ := hok
    have hinl2 := (InList_iff hsn hchain p).mp hinl
    have hbp : b ≠ p := by
      rcases hinl2 with rfl | hp2
      · exact hb1
      · exact fun he => hb2 (he ▸ hp2)
    exact (InsertAfter_spec hsn hchain hhd hinl2 v).2.2.1 b hbp hb3
  | eraseA pos =>
    obtain ⟨i, hile, hposeq⟩ := validPos_advN hsn hchain hok
    subst hposeq
    rcases Nat.lt_or_ge i as.length with hilt | hieq
    · exact (EraseAfter_at hsn hchain hhd hilt).2.2.2.2.1 b hb1 hb2
    · have hieq2 : i = as.length := by omega
      subst hieq2
      show ((EraseAfter h l (advN h as.length (before_begin l))).1).get b = h.get b
      rw [EraseAfter_end hsn hchain hhd]
  | clear =>
    exact (Clear_spec hsn hchain hhd).2.2.2.2.1 b hb1 hb2

theorem validPos_get {h : Heap α} {l : SingleLinkedList} {sn : Node α}
    {as : List Nat} {vs : List α} (hsn : h.get l.head_ = some sn)
    (hchain : ChainSeg h sn.next_node as vs none) {p : Nat}
    (hinl : InList h l p) : ∃ n : Node α, h.get p = some n := by
  rcases (InList_iff hsn hchain p).mp hinl with rfl | hp
  · exact ⟨sn, hsn⟩
  · obtain ⟨as2, vs2, hc2, _, _⟩ := hchain.mem_suffix hp
    cases hc2 with
    | cons hget _ => exact ⟨_, hget⟩

/-! ### Claim theorems -/

/-- Claim C1 (status: the code violates the required behaviour).  The claim
demands that `operator==` return true iff the lists have the same length
and equal elements, detecting a length mismatch.  The implementation is
`std::equal(lhs.begin(), lhs.end(), rhs.begin())`, which never compares
lengths: with `lhs = {1,2}` a strict prefix of `rhs = {1,2,3}` it returns
`true` although the sizes are 2 and 3, and with the arguments swapped the
element-wise scan dereferences past the shorter list's end (undefined
behaviour, modelled as `none`). -/
theorem C1_equality_unchecked :
    GetSize demo12.2 = 2 ∧ GetSize demo12_123.2 = 3 ∧
    opEq demo12_123.1 demo12.2 demo12_123.2 = some true ∧
    opEq demo12_123.1 demo12_123.2 demo12.2 = none := by
  decide

/-- Claim C2: for every well-formed list and every valid position `pos`
(a live node or the sentinel), if copying the value passed to
`InsertAfter` throws, the exception propagates to the caller and the
list is left exactly as it was before the call — the heap and the list
object are unchanged (hence the same size and element sequence; no
partial insertion). -/
theorem C2_insertAfter_strong (h : Heap Int) (l : SingleLinkedList)
    (pos : Option Nat) (e : Unit) (hwf : WF h l) (hpos : ValidPos h l pos) :
    (InsertAfterChecked h l pos (Except.error e)).2 = some e ∧
    (InsertAfterChecked h l pos (Except.error e)).1.1 = h ∧
    (InsertAfterChecked h l pos (Except.error e)).1.2.1 = l ∧
    toListF ((InsertAfterChecked h l pos (Except.error e)).1.1)
      ((InsertAfterChecked h l pos (Except.error e)).1.2.1) = toListF h l ∧
    GetSize ((InsertAfterChecked h l pos (Except.error e)).1.2.1)
      = GetSize l := by
  obtain ⟨sn, as, vs, hsn, hch, hsz, hhd⟩ := hwf
  obtain ⟨p, rfl, hinl⟩ := hpos
  obtain ⟨pn, hgp⟩ := validPos_get hsn hch hinl
  have hr : InsertAfterChecked h l (some p) (Except.error e)
      = ((h, l, none), some e) := by
    simp only [InsertAfterChecked, hgp]
  rw [hr]
  exact ⟨rfl, rfl, rfl, rfl, rfl⟩

theorem C2_witness :
    (InsertAfterChecked demo12.1 demo12.2 (before_begin demo12.2)
      (Except.error ())).2 = some () ∧
    (InsertAfterChecked demo12.1 demo12.2 (before_begin demo12.2)
      (Except.error ())).1.1 = demo12.1 ∧
    (InsertAfterChecked demo12.1 demo12.2 (before_begin demo12.2)
      (Except.error ())).1.2.1 = demo12.2 ∧
    toListF ((InsertAfterChecked demo12.1 demo12.2 (before_begin demo12.2)
        (Except.error ())).1.1)
      ((InsertAfterChecked demo12.1 demo12.2 (before_begin demo12.2)
        (Except.error ())).1.2.1) = toListF demo12.1 demo12.2 ∧
    GetSize ((InsertAfterChecked demo12.1 demo12.2 (before_begin demo12.2)
      (Except.error ())).1.2.1) = GetSize demo12.2 :=
  C2_insertAfter_strong demo12.1 demo12.2 (before_begin demo12.2) ()
    (WF.mk_init heap0 [1, 2]) ⟨demo12.2.head_, rfl, Or.inl rfl⟩

/-- Claim C4: for every finite sequence `S`, constructing a list from `S`
(the `initializer_list` constructor) and then traversing it from
`begin()` to `end()` yields exactly the elements of `S` in order, and
`GetSize()` equals the length of `S`.  This holds starting from any
heap. -/
theorem C4_init_traversal (h : Heap Int) (values : List Int) :
    toListF (fromValues h values).1 (fromValues h values).2 = some values ∧
    GetSize (fromValues h values).2 = values.length := by
  obtain ⟨as, hf1, hf2, hf3, hf4, hf5, hf6, hf7⟩ := fromValues_spec h values
  constructor
  · refine @toListF_eq Int (fromValues h values).1 (fromValues h values).2
      ⟨default, segJoin as none⟩ as values ?_ hf4
    rw [hf1]
    exact hf3
  · exact hf2

/-- Claim C7: for every well-formed list, incrementing the iterator
returned by `before_begin()` / `cbefore_begin()` once yields an iterator
equal to `begin()` (mutable and const iterators share one
representation, the node pointer); in particular on an empty list the
incremented before-begin iterator equals `end()`. -/
theorem C7_before_begin (h : Heap Int) (l : SingleLinkedList)
    (hwf : WF h l) :
    incr h (before_begin l) = begin h l ∧
    (GetSize l = 0 → incr h (before_begin l) = endIter) := by
  obtain ⟨sn, as, vs, hsn, hch, hsz, hhd⟩ := hwf
  have h1 : incr h (before_begin l) = sn.next_node := by
    simp [incr, before_begin, hsn]
  have h2 : begin h l = sn.next_node := by
    simp [begin, hsn]
  refine ⟨by rw [h1, h2], fun hz => ?_⟩
  have has : as = [] := List.eq_nil_of_length_eq_zero (by
    rw [hsz]
    exact hz)
  subst has
  have hnx : sn.next_node = none := hch.start_eq
  rw [h1, hnx]
  rfl

theorem C7_witness :
    (incr demoE.1 (before_begin demoE.2) = begin demoE.1 demoE.2 ∧
      (GetSize demoE.2 = 0 → incr demoE.1 (before_begin demoE.2) = endIter)) ∧
    incr demoE.1 (before_begin demoE.2) = endIter := by
  have h1 := C7_before_begin demoE.1 demoE.2 (WF.mk_default heap0)
  exact ⟨h1, h1.2 (by decide)⟩

/-- Claim C10: `PopFront()` called on an empty list is a total no-op:
the `if (!IsEmpty())` guard is taken, so the heap and the list object
(size still 0) are returned entirely unchanged and no node is deleted. -/
theorem C10_popFront_empty (h : Heap Int) (l : SingleLinkedList)
    (hsz : GetSize l = 0) : PopFront h l = (h, l) := by
  have hsz2 : l.size_ = 0 := hsz
  have hie : IsEmpty l = true := by
    simp [IsEmpty, hsz2]
  rw [PopFront, hie]
  simp only [if_true]

theorem C10_witness : PopFront demoE.1 demoE.2 = (demoE.1, demoE.2) :=
  C10_popFront_empty demoE.1 demoE.2 (by decide)

/-- Claim C3: for every list state reachable from a constructor (default,
initializer-list, copy) by any sequence of the public operations
(`PushFront`, `PopFront`, `InsertAfter` and `EraseAfter` at valid
positions, `Clear`, `swap` with another well-formed separate list, copy
assignment), the stored size counter equals the number of real nodes
reachable from the sentinel, and the node chain is acyclic
(`as.Nodup`) and finite, terminating in the null `end` link (the
`ChainSeg … none` predicate only holds of finite null-terminated
chains). -/
theorem C3_invariant (h : Heap Int) (l : SingleLinkedList)
    (hr : Reachable h l) :
    ∃ (sn : Node Int) (as : List Nat) (vs : List Int),
      h.get l.head_ = some sn ∧
      ChainSeg h sn.next_node as vs none ∧
      as.length = GetSize l ∧
      as.Nodup := by
  obtain ⟨sn, as, vs, h1, h2, h3, _⟩ := hr.wf
  exact ⟨sn, as, vs, h1, h2, h3, h2.nodup⟩

theorem C3_witness :
    ∃ (sn : Node Int) (as : List Nat) (vs : List Int),
      ((PushFront demo12.1 demo12.2 7).1).get
        ((PushFront demo12.1 demo12.2 7).2).head_ = some sn ∧
      ChainSeg (PushFront demo12.1 demo12.2 7).1 sn.next_node as vs none ∧
      as.length = GetSize (PushFront demo12.1 demo12.2 7).2 ∧
      as.Nodup :=
  C3_invariant (PushFront demo12.1 demo12.2 7).1 (PushFront demo12.1 demo12.2 7).2
    (Reachable.push 7 (Reachable.mk_init heap0 [1, 2]))

/-- Claim C9: for every well-formed non-empty list, `PopFront()` removes
exactly the first element (the traversal afterwards is the original tail,
in order), decrements the size by exactly 1, and destroys the removed
node's payload exactly once: the first node's slot `fa` goes from live to
freed, and no other slot changes its live/freed status. -/
theorem C9_popFront (h : Heap Int) (l : SingleLinkedList) (hwf : WF h l)
    (hne : GetSize l ≠ 0) :
    ∃ (v : Int) (vs : List Int) (fa : Nat),
      toListF h l = some (v :: vs) ∧
      begin h l = some fa ∧
      h.get fa ≠ none ∧
      toListF (PopFront h l).1 (PopFront h l).2 = some vs ∧
      GetSize (PopFront h l).2 = GetSize l - 1 ∧
      ((PopFront h l).1).get fa = none ∧
      (∀ b, b ≠ fa → (((PopFront h l).1).get b = none ↔ h.get b = none)) := by
  obtain ⟨sn, as, vs0, hsn, hch, hsz, hhd⟩ := hwf
  obtain ⟨snv, snx⟩ := sn
  cases has2 : as with
  | nil =>
    rw [has2] at hsz
    exact absurd hsz.symm (by simpa using hne)
  | cons fa as2 =>
    subst has2
    cases hch with
    | cons hgf rest =>
      rename_i fv nx vs2
      obtain ⟨nx2, hq0, hq1, hq2, hq3, hq4, hq5, hq6, hq7⟩ :=
        PopFront_spec hsn (ChainSeg.cons hgf rest) hne hhd
      refine ⟨fv, vs2, fa, ?_, ?_, ?_, ?_, hq2, hq5, ?_⟩
      · exact toListF_eq hsn (ChainSeg.cons hgf rest)
      · simp [begin, hsn]
      · rw [hq0]
        simp
      · refine @toListF_eq Int (PopFront h l).1 (PopFront h l).2
          ⟨snv, nx2⟩ as2 vs2 ?_ hq4
        rw [hq1]
        exact hq3
      · intro b hbfa
        by_cases hbh : b = l.head_
        · subst hbh
          rw [hq3, hsn]
          simp
        · rw [hq6 b hbh hbfa]

theorem C9_witness :
    ∃ (v : Int) (vs : List Int) (fa : Nat),
      toListF demo5.1 demo5.2 = some (v :: vs) ∧
      begin demo5.1 demo5.2 = some fa ∧
      demo5.1.get fa ≠ none ∧
      toListF (PopFront demo5.1 demo5.2).1 (PopFront demo5.1 demo5.2).2
        = some vs ∧
      GetSize (PopFront demo5.1 demo5.2).2 = GetSize demo5.2 - 1 ∧
      ((PopFront demo5.1 demo5.2).1).get fa = none ∧
      (∀ b, b ≠ fa →
        (((PopFront demo5.1 demo5.2).1).get b = none ↔
          demo5.1.get b = none)) :=
  C9_popFront demo5.1 demo5.2 (WF.mk_init heap0 [3, 14, 15, 92, 6]) (by decide)

/-- Claim C6: for every well-formed list and the position reached by
advancing `before_begin()` `i` times (the sentinel for `i = 0`, the
`i`-th node otherwise): if that position has a successor (`i <` size),
`EraseAfter` removes exactly that successor (the element sequence
becomes `vs.eraseIdx i`), decrements the size by 1, and returns an
iterator to the node now following the removed one — the iterator
reached by advancing `before_begin()` of the updated list `i + 1` times,
which is `end()` when there is none; if the position has no successor
(`i =` size), the call leaves the heap and list unchanged and returns
`end()`. -/
theorem C6_eraseAfter (h : Heap Int) (l : SingleLinkedList) (i : Nat)
    (hwf : WF h l) (_hi : i ≤ GetSize l) :
    ∃ vs : List Int, toListF h l = some vs ∧
      (i < GetSize l →
        (EraseAfter h l (advN h i (before_begin l))).2.1.size_
            = GetSize l - 1 ∧
        toListF (EraseAfter h l (advN h i (before_begin l))).1
            (EraseAfter h l (advN h i (before_begin l))).2.1
          = some (vs.eraseIdx i) ∧
        (EraseAfter h l (advN h i (before_begin l))).2.2
          = advN (EraseAfter h l (advN h i (before_begin l))).1 (i + 1)
              (before_begin (EraseAfter h l (advN h i (before_begin l))).2.1)) ∧
      (i = GetSize l →
        EraseAfter h l (advN h i (before_begin l)) = (h, l, endIter)) := by
  obtain ⟨sn, as, vs, hsn, hch, hsz, hhd⟩ := hwf
  refine ⟨vs, toListF_eq hsn hch, fun hlt => ?_, fun heq => ?_⟩
  · have hilt : i < as.length := by
      rw [hsz]
      exact hlt
    obtain ⟨he1, ⟨sn2, he2, he3, he4⟩, he5, ⟨da, he6, he7⟩, he8, he9⟩ :=
      EraseAfter_at hsn hch hhd hilt
    refine ⟨?_, ?_, ?_⟩
    · rw [he1]
      rfl
    · refine @toListF_eq Int (EraseAfter h l (advN h i (before_begin l))).1
        (EraseAfter h l (advN h i (before_begin l))).2.1 sn2
        (as.eraseIdx i) (vs.eraseIdx i) ?_ he4
      rw [he1]
      exact he2
    · rw [he5, he1]
      show ((as.eraseIdx i).drop i).head?
          = advN (EraseAfter h l (advN h i (before_begin l))).1 i
              (incr (EraseAfter h l (advN h i (before_begin l))).1
                (some l.head_))
      have hincr : incr (EraseAfter h l (advN h i (before_begin l))).1
          (some l.head_) = sn2.next_node := by
        simp [incr, he2]
      rw [hincr, advN_chain i he4]
  · have hg : GetSize l = l.size_ := rfl
    have hias : i = as.length := by omega
    rw [hias]
    exact EraseAfter_end hsn hch hhd

theorem C6_witness :
    ∃ vs : List Int, toListF demo1234.1 demo1234.2 = some vs ∧
      (1 < GetSize demo1234.2 →
        (EraseAfter demo1234.1 demo1234.2
            (advN demo1234.1 1 (before_begin demo1234.2))).2.1.size_
            = GetSize demo1234.2 - 1 ∧
        toListF (EraseAfter demo1234.1 demo1234.2
            (advN demo1234.1 1 (before_begin demo1234.2))).1
            (EraseAfter demo1234.1 demo1234.2
              (advN demo1234.1 1 (before_begin demo1234.2))).2.1
          = some (vs.eraseIdx 1) ∧
        (EraseAfter demo1234.1 demo1234.2
            (advN demo1234.1 1 (before_begin demo1234.2))).2.2
          = advN (EraseAfter demo1234.1 demo1234.2
                (advN demo1234.1 1 (before_begin demo1234.2))).1 2
              (before_begin (EraseAfter demo1234.1 demo1234.2
                (advN demo1234.1 1 (before_begin demo1234.2))).2.1)) ∧
      (1 = GetSize demo1234.2 →
        EraseAfter demo1234.1 demo1234.2
            (advN demo1234.1 1 (before_begin demo1234.2))
          = (demo1234.1, demo1234.2, endIter)) :=
  C6_eraseAfter demo1234.1 demo1234.2 1 (WF.mk_init heap0 [1, 2, 3, 4])
    (by decide)

/-- Claim C8: the comparison operators implement lexicographic order on
element sequences: `{1,2,3} < {1,2,4}` holds, `{1,2} < {1,2,3}` holds (a
strict prefix is less than the longer list), and any two lists holding
the same element sequence (in particular equal length with equal
elements) satisfy neither `operator<` nor `operator>`. -/
theorem C8_lexicographic :
    opLt demo123_124.1 demo123.2 demo123_124.2 = some true ∧
    opLt demo12_123.1 demo12.2 demo12_123.2 = some true ∧
    (∀ (h : Heap Int) (l1 l2 : SingleLinkedList) (vs : List Int),
      toListF h l1 = some vs → toListF h l2 = some vs →
      opLt h l1 l2 = some false ∧ opGt h l1 l2 = some false) := by
  refine ⟨by decide, by decide, ?_⟩
  intro h l1 l2 vs h1 h2
  obtain ⟨as1, hc1⟩ := toListF_chain h1
  obtain ⟨as2, hc2⟩ := toListF_chain h2
  have hlen1 : vs.length < h.mem.length + 1 := by
    have e1 := hc1.length_eq
    have e2 := chain_length_le hc1
    omega
  constructor
  · show lexIt h (h.mem.length + 1) (begin h l1) (begin h l2) = some false
    rw [lexIt_eq vs hc1 hc2 _ hlen1, lexLt_self]
  · show lexIt h (h.mem.length + 1) (begin h l2) (begin h l1) = some false
    rw [lexIt_eq vs hc2 hc1 _ hlen1, lexLt_self]

theorem C8_witness :
    opLt demo123.1 demo123.2 demo123.2 = some false ∧
    opGt demo123.1 demo123.2 demo123.2 = some false :=
  C8_lexicographic.2.2 demo123.1 demo123.2 demo123.2 [1, 2, 3]
    (by decide) (by decide)

/-- Claim C5: for every well-formed list `L`, copy construction produces
`L2` that compares element-wise equal to `L` (`operator==` returns
true), shares no node (sentinel or element) with `L`, and any subsequent
mutation of `L2` — push, pop, insert-after or erase-after at a valid
position of `L2`, or clear — leaves `L`'s element sequence unchanged
(`L`'s own size field is untouched by construction, and it still matches
the sequence length). -/
theorem C5_deep_copy (h : Heap Int) (L : SingleLinkedList) (hwf : WF h L) :
    ∃ vs : List Int,
      toListF h L = some vs ∧
      GetSize L = vs.length ∧
      toListF (copyCtor h L).1 L = some vs ∧
      opEq (copyCtor h L).1 (copyCtor h L).2 L = some true ∧
      Sep (copyCtor h L).1 (copyCtor h L).2 L ∧
      (∀ m : Mutation Int, MutOK (copyCtor h L).1 (copyCtor h L).2 m →
        toListF (applyMut (copyCtor h L).1 (copyCtor h L).2 m).1 L
          = some vs) := by
  obtain ⟨sn, as, vs, hsn, hch, hsz, hhd⟩ := hwf
  obtain ⟨sn2, as2, hc1, hc2, hc3, hc4, hc5, hc6, hc7, hc8⟩ :=
    copyCtor_spec hsn hch hsz
  have hhl : L.head_ < h.mem.length := Heap.lt_of_get_eq_some hsn
  have hsnL : ((copyCtor h L).1).get L.head_ = some sn := by
    rw [hc7 _ hhl, hsn]
  have hchL : ChainSeg (copyCtor h L).1 sn.next_node as vs none :=
    hch.congr (fun a ha => hc7 a (hch.mem_lt a ha))
  have hsn2c : ((copyCtor h L).1).get (copyCtor h L).2.head_ = some sn2 := by
    rw [hc1]
    exact hc3
  refine ⟨vs, toListF_eq hsn hch, ?_, toListF_eq hsnL hchL, ?_, ?_, ?_⟩
  · show L.size_ = vs.length
    rw [← hsz, hch.length_eq]
  · -- operator== on the copy and the original
    have hb2 : begin (copyCtor h L).1 (copyCtor h L).2 = sn2.next_node := by
      simp [begin, hsn2c]
    have hbL : begin (copyCtor h L).1 L = sn.next_node := by
      simp [begin, hsnL]
    show stdEqualIt (copyCtor h L).1 ((copyCtor h L).1.mem.length + 1)
      (begin (copyCtor h L).1 (copyCtor h L).2) (begin (copyCtor h L).1 L)
      = some true
    rw [hb2, hbL]
    have hfuel : vs.length < (copyCtor h L).1.mem.length + 1 := by
      have e1 := hch.length_eq
      have e2 := chain_length_le hch
      omega
    rw [stdEqualIt_eq vs hc4 hchL _ hfuel, stdEqual_refl]
  · -- no shared nodes
    intro p hp1 hp2
    have hmem2 := (InList_iff hsn2c hc4 p).mp hp1
    have hmemL := (InList_iff hsnL hchL p).mp hp2
    have hge : h.mem.length ≤ p := by
      rcases hmem2 with rfl | hm
      · exact Nat.le_of_eq hc1.symm
      · have := hc6 _ hm
        omega
    have hlt2 : p < h.mem.length := by
      rcases hmemL with rfl | hm
      · exact hhl
      · exact hch.mem_lt _ hm
    omega
  · -- any mutation of the copy leaves the original's sequence intact
    intro m hok
    have hsz2 : as2.length = (copyCtor h L).2.size_ := by
      rw [hc2, hc5, hsz]
    have hhd2 : (copyCtor h L).2.head_ ∉ as2 := by
      rw [hc1]
      intro hm
      have := hc6 _ hm
      omega
    have hfr := applyMut_frame hsn2c hc4 hsz2 hhd2 m hok
    have hhne : L.head_ ≠ (copyCtor h L).2.head_ := by
      rw [hc1]
      omega
    have hhnm : L.head_ ∉ as2 := fun hm => by
      have := hc6 _ hm
      omega
    have hsnL2 : ((applyMut (copyCtor h L).1 (copyCtor h L).2 m).1).get L.head_
        = some sn := by
      rw [hfr L.head_ hhne hhnm (by omega), hsnL]
    have hchL2 : ChainSeg (applyMut (copyCtor h L).1 (copyCtor h L).2 m).1
        sn.next_node as vs none := by
      refine hchL.congr (fun a ha => ?_)
      have halt : a < h.mem.length := hch.mem_lt a ha
      have hane : a ≠ (copyCtor h L).2.head_ := by
        rw [hc1]
        omega
      have hanm : a ∉ as2 := fun hm => by
        have := hc6 _ hm
        omega
      exact hfr a hane hanm (by omega)
    exact toListF_eq hsnL2 hchL2

theorem C5_witness :
    ∃ vs : List Int,
      toListF demo123.1 demo123.2 = some vs ∧
      GetSize demo123.2 = vs.length ∧
      toListF (copyCtor demo123.1 demo123.2).1 demo123.2 = some vs ∧
      opEq (copyCtor demo123.1 demo123.2).1 (copyCtor demo123.1 demo123.2).2
        demo123.2 = some true ∧
      Sep (copyCtor demo123.1 demo123.2).1 (copyCtor demo123.1 demo123.2).2
        demo123.2 ∧
      (∀ m : Mutation Int,
        MutOK (copyCtor demo123.1 demo123.2).1
          (copyCtor demo123.1 demo123.2).2 m →
        toListF (applyMut (copyCtor demo123.1 demo123.2).1
            (copyCtor demo123.1 demo123.2).2 m).1 demo123.2 = some vs) :=
  C5_deep_copy demo123.1 demo123.2 (WF.mk_init heap0 [1, 2, 3])

end SLL
